import Mathlib

/-!
Verification development for the Minibun JavaScript build toolchain.

The JavaScript sources (`src/parser.js`, `src/minification.js`,
`src/obfuscation.js`, `src/tree-shaking.js`, `src/bundling.js`) are shallowly
embedded below.  JavaScript strings are modelled as `List Char`, one element
per code unit; loops are modelled as fuel-indexed structural recursion, with
the fuel chosen large enough at every call site that it never runs out (each
loop advances its cursor by at least one on every iteration, so a fuel of
`length + 1` bounds the iteration count of the cursor loops).
-/

namespace Minibun

/-- JavaScript strings, one `Char` per code unit. -/
abbrev JSStr := List Char

/-- Coerce a Lean string literal into the model. -/
def str (s : String) : JSStr := s.data

/-- JavaScript `String.prototype.slice(i, j)` for `0 ≤ i ≤ j`; the end index is
clamped to the length of the string, as in JavaScript. -/
def slice (s : JSStr) (i j : Nat) : JSStr := (s.drop i).take (j - i)

/-- Drop the first and the last character: JavaScript `value.slice(1, -1)`,
used to strip the quotes of a string literal. -/
def innerOf (v : JSStr) : JSStr := (v.drop 1).dropLast

/-- The ECMAScript `\s` character class (WhiteSpace plus LineTerminator), the
set tested by `/\s/.test(ch)` in the scanner and used by `String.trim`. -/
def isJsWs (c : Char) : Bool :=
  c = '\t' || c = '\n' || c = '\x0b' || c = '\x0c' || c = '\r' || c = ' ' ||
  c = '\u00a0' || c = '\u1680' || (0x2000 ≤ c.toNat && c.toNat ≤ 0x200a) ||
  c = '\u2028' || c = '\u2029' || c = '\u202f' || c = '\u205f' ||
  c = '\u3000' || c = '\ufeff'

/-- JavaScript `String.prototype.trim`. -/
def jsTrim (s : JSStr) : JSStr :=
  ((s.dropWhile isJsWs).reverse.dropWhile isJsWs).reverse

/-- Decide whether `pat` is an initial segment of `s` (helper for substring
search). -/
def listStarts : JSStr → JSStr → Bool
  | [], _ => true
  | _ :: _, [] => false
  | p :: ps, c :: cs => p = c && listStarts ps cs

/-- First index at which `pat` occurs in `s`, like `String.prototype.indexOf`
(`none` plays the role of `-1`). -/
def indexOfSub? (pat : JSStr) : JSStr → Option Nat
  | [] => if listStarts pat [] then some 0 else none
  | c :: cs => if listStarts pat (c :: cs) then some 0 else (indexOfSub? pat cs).map (· + 1)

/-- JavaScript `String.prototype.includes`. -/
def containsSub (s pat : JSStr) : Bool := (indexOfSub? pat s).isSome

/-- Character class `/[0-9]/`. -/
def isDecimalDigit (c : Char) : Bool := '0' ≤ c && c ≤ '9'

/-- Character class `/[0-9a-fA-F]/`. -/
def isHexDigit (c : Char) : Bool :=
  isDecimalDigit c || ('a' ≤ c && c ≤ 'f') || ('A' ≤ c && c ≤ 'F')

/-- Identifier start characters of `src/parser.js` (`A-Z a-z _ $`). -/
def isIdentifierStart (c : Char) : Bool :=
  ('a' ≤ c && c ≤ 'z') || ('A' ≤ c && c ≤ 'Z') || c = '$' || c = '_'

/-- Identifier part characters (start characters plus digits). -/
def isIdentifierPart (c : Char) : Bool := isIdentifierStart c || isDecimalDigit c

/-- Character class `/[a-z]/i`, used for regex flags. -/
def isFlagLetter (c : Char) : Bool := ('a' ≤ c && c ≤ 'z') || ('A' ≤ c && c ≤ 'Z')

/-- Characters other than CR and LF, the continuation condition of the line
comment loop. -/
def notLineEnd (c : Char) : Bool := !(c = '\n' || c = '\r')

/-- Token kinds of the lexer.  `string` and `code` appear as `stringLit` and
`codeGen` only because of Lean naming conflicts; `codeGen` is the synthetic
kind produced by the boolean rewrite of the minifier. -/
inductive TokType where
  | identifier
  | keyword
  | stringLit
  | template
  | number
  | punctuator
  | regex
  | comment
  | whitespace
  | eof
  | codeGen
deriving DecidableEq, Repr

/-- A lexer token: in the source a record with fields `type`, `value`,
`start`, `end`; the `end` offset is called `stop` here because `end` is
reserved in Lean. -/
structure Token where
  type : TokType
  value : JSStr
  start : Nat
  stop : Nat
deriving DecidableEq, Repr

/-- The fixed keyword set of `src/parser.js` (note: it does not contain
`from`, `true`, `false` or `null`). -/
def KEYWORDS : List JSStr :=
  [str "break", str "case", str "catch", str "class", str "const",
   str "continue", str "debugger", str "default", str "delete",
   str "do", str "else", str "export", str "extends", str "finally",
   str "for", str "function", str "if", str "import", str "in",
   str "instanceof", str "let", str "new", str "return", str "super",
   str "switch", str "this", str "throw", str "try", str "typeof",
   str "var", str "void", str "while", str "with", str "yield",
   str "enum", str "await", str "async", str "of"]

/-- The fixed punctuator set of `src/parser.js`, verbatim: it contains the
two-character entry `"; "` (semicolon followed by a space) rather than `";"`,
and `"/?"` rather than `"?."`. -/
def PUNCTUATORS : List JSStr :=
  [str "\x7b", str "\x7d", str "(", str ")", str "[", str "]", str ".",
   str "; ", str ",", str ":", str "?", str "~",
   str "<", str ">", str "<=", str ">=", str "==", str "!=", str "===", str "!==",
   str "+", str "-", str "*", str "%", str "++", str "--", str "<<", str ">>", str ">>>",
   str "&", str "|", str "^", str "!", str "&&", str "||", str "??",
   str "=", str "+=", str "-=", str "*=", str "%=", str "<<=", str ">>=", str ">>>=",
   str "&=", str "|=", str "^=", str "=>", str "**", str "**=", str "/?", str "/"]

/-- Keywords after which a slash starts a regex literal. -/
def REGEX_KEYWORDS : List JSStr :=
  [str "return", str "case", str "throw", str "else", str "do", str "typeof",
   str "instanceof", str "in", str "of"]

/-- Punctuators after which a slash starts a regex literal. -/
def REGEX_PUNCTUATORS : List JSStr :=
  [str "(", str "\x7b", str "[", str ",", str ";", str "!", str "~", str "?",
   str "=", str ":", str "&&", str "||", str "??", str "+", str "-", str "*",
   str "/", str "%", str "&", str "|", str "^", str "<", str ">"]

/-- The regex-versus-division heuristic `isRegexAllowedAfter` of
`src/parser.js`, applied to the previous significant token. -/
def isRegexAllowedAfter : Option Token → Bool
  | none => true
  | some p =>
    if p.type = TokType.keyword then decide (p.value ∈ REGEX_KEYWORDS)
    else if p.type = TokType.punctuator then decide (p.value ∈ REGEX_PUNCTUATORS)
    else false

/-- Scanner loop `while (j < len && p(code[j])) j++`, fuel-indexed.  Models
the whitespace, line comment, digit, hex digit, identifier part and regex
flag loops of `tokenize`. -/
def scanWhile (s : JSStr) (p : Char → Bool) : Nat → Nat → Nat
  | 0, j => j
  | fuel+1, j =>
    match s[j]? with
    | some c => if p c then scanWhile s p fuel (j+1) else j
    | none => j

/-- Body loop of a block comment: advance until `*/` is found or the end of
the input; returns the position of the `*` of the terminator (or `len`). -/
def scanBlockBody (s : JSStr) : Nat → Nat → Nat
  | 0, j => j
  | fuel+1, j =>
    match s[j]? with
    | some c =>
      if c = '*' ∧ s[j+1]? = some '/' then j else scanBlockBody s fuel (j+1)
    | none => j

/-- String literal loop of `tokenize`: `\X` advances two positions without
inspecting `X`; an unescaped closing quote ends the token one past itself;
the loop also stops at the end of the input. -/
def scanString (s : JSStr) (quote : Char) : Nat → Nat → Nat
  | 0, j => j
  | fuel+1, j =>
    match s[j]? with
    | none => j
    | some c =>
      if c = '\\' then scanString s quote fuel (j+2)
      else if c = quote then j + 1
      else scanString s quote fuel (j+1)

/-- Interpolation loop inside a template literal: brace-depth counter started
at 1 by the caller, decremented on `\x7d`, incremented on `\x7b`, with `\X`
escapes skipping two characters. -/
def scanInterp (s : JSStr) : Nat → Nat → Nat → Nat
  | 0, j, _ => j
  | fuel+1, j, depth =>
    if depth = 0 then j
    else
      match s[j]? with
      | none => j
      | some d =>
        if d = '\\' then scanInterp s fuel (j+2) depth
        else scanInterp s fuel (j+1)
          (if d = '\x7b' then depth + 1 else if d = '\x7d' then depth - 1 else depth)

/-- Template literal loop of `tokenize`: backslash escapes, an unescaped
closing backtick, and `$\x7b ... \x7d` interpolations tracked by
`scanInterp`. -/
def scanTemplate (s : JSStr) : Nat → Nat → Nat
  | 0, j => j
  | fuel+1, j =>
    match s[j]? with
    | none => j
    | some c =>
      if c = '\\' then scanTemplate s fuel (j+2)
      else if c = '\x60' then j + 1
      else if c = '$' ∧ s[j+1]? = some '\x7b' then
        scanTemplate s fuel (scanInterp s (s.length + 1) (j+2) 1)
      else scanTemplate s fuel (j+1)

/-- Regex literal body loop of `tokenize`: backslash escapes, `[...]`
character classes tracked by the `inClass` flag, terminated by an unescaped
`/` at class depth zero (or the end of the input). -/
def scanRegexBody (s : JSStr) : Nat → Nat → Bool → Nat
  | 0, j, _ => j
  | fuel+1, j, inClass =>
    match s[j]? with
    | none => j
    | some c =>
      if c = '\\' then scanRegexBody s fuel (j+2) inClass
      else if c = '[' then scanRegexBody s fuel (j+1) true
      else if c = ']' ∧ inClass then scanRegexBody s fuel (j+1) false
      else if c = '/' ∧ ¬inClass then j + 1
      else scanRegexBody s fuel (j+1) inClass

/-- Greedy punctuator match at position `i`: the 3-, 2- and 1-character
prefixes are tried in that order against `PUNCTUATORS`, exactly as the
candidate loop of `tokenize` does (`candidate = code.slice(i, i + size)`). -/
def punctMatchAt (s : JSStr) (i : Nat) : Option JSStr :=
  if i + 3 ≤ s.length ∧ slice s i (i+3) ∈ PUNCTUATORS then some (slice s i (i+3))
  else if i + 2 ≤ s.length ∧ slice s i (i+2) ∈ PUNCTUATORS then some (slice s i (i+2))
  else if i + 1 ≤ s.length ∧ slice s i (i+1) ∈ PUNCTUATORS then some (slice s i (i+1))
  else none

/-- End offset of a number literal starting at `i` with first character `ch`:
hex form `0x`/`0X` followed by hex digits, otherwise digits with an optional
`.digits` fraction, as in `tokenize`. -/
def scanNumberEnd (s : JSStr) (i : Nat) (ch : Char) : Nat :=
  if ch = '0' ∧ (s[i+1]? = some 'x' ∨ s[i+1]? = some 'X') then
    scanWhile s isHexDigit (s.length + 1) (i+2)
  else
    let j := scanWhile s isDecimalDigit (s.length + 1) i
    if s[j]? = some '.' ∧ ((s[j+1]?).map isDecimalDigit).getD false then
      scanWhile s isDecimalDigit (s.length + 1) (j+1)
    else j

/-- One step of the scanning loop of `tokenize`: classify the character `ch`
at position `i` (with `prev` the previous significant token) and return the
token type together with the exclusive end offset.  The branch order is
exactly that of the source: whitespace, line comment, block comment, string,
template, number, identifier/keyword, regex, punctuator, unknown-character
fallback.  The token value is always `code.slice(i, j)` (for the matched
punctuator the candidate already is that slice, and for the fallback the
single character is `code.slice(i, i+1)`), so the value is reconstructed as
`slice s i j` by the caller. -/
def scanTokenAt (s : JSStr) (i : Nat) (ch : Char) (prev : Option Token) : TokType × Nat :=
  if isJsWs ch then
    (TokType.whitespace, scanWhile s isJsWs (s.length + 1) (i+1))
  else if ch = '/' ∧ s[i+1]? = some '/' then
    (TokType.comment, scanWhile s notLineEnd (s.length + 1) (i+2))
  else if ch = '/' ∧ s[i+1]? = some '*' then
    (TokType.comment, min (scanBlockBody s (s.length + 1) (i+2) + 2) s.length)
  else if ch = '\x27' ∨ ch = '"' then
    (TokType.stringLit, scanString s ch (s.length + 1) (i+1))
  else if ch = '\x60' then
    (TokType.template, scanTemplate s (s.length + 1) (i+1))
  else if isDecimalDigit ch ∨ (ch = '.' ∧ ((s[i+1]?).map isDecimalDigit).getD false) then
    (TokType.number, scanNumberEnd s i ch)
  else if isIdentifierStart ch then
    (if slice s i (scanWhile s isIdentifierPart (s.length + 1) (i+1)) ∈ KEYWORDS then
       TokType.keyword
     else TokType.identifier,
     scanWhile s isIdentifierPart (s.length + 1) (i+1))
  else if ch = '/' ∧ isRegexAllowedAfter prev then
    (TokType.regex, scanWhile s isFlagLetter (s.length + 1) (scanRegexBody s (s.length + 1) (i+1) false))
  else
    match punctMatchAt s i with
    | some m => (TokType.punctuator, i + m.length)
    | none => (TokType.punctuator, i + 1)

/-- The scanning loop of `tokenize`, fuel-indexed: while the cursor is inside
the input, emit the token scanned at the cursor and continue at its end
offset, updating the previous significant token; at the end of the input a
single `eof` token with offsets `len` is appended. -/
def tokAux (s : JSStr) : Nat → Nat → Option Token → List Token
  | 0, _, _ => []
  | fuel+1, i, prev =>
    match s[i]? with
    | none => [⟨TokType.eof, [], s.length, s.length⟩]
    | some ch =>
      let r := scanTokenAt s i ch prev
      let t : Token := ⟨r.1, slice s i r.2, i, r.2⟩
      t :: tokAux s fuel r.2
        (if r.1 = TokType.whitespace ∨ r.1 = TokType.comment then prev else some t)

/-- The tokenizer `tokenize` of `src/parser.js`.  The scanning loop advances
the cursor by at least one position per iteration, so `length + 1` units of
fuel always suffice. -/
def tokenize (s : JSStr) : List Token := tokAux s (s.length + 1) 0 none

/-- Import records of `findModuleSyntax`: `sideEffect` is the JavaScript
record type `side-effect`, `fromImport` the record type `import`. -/
inductive ImportKind where
  | sideEffect
  | fromImport
deriving DecidableEq, Repr

/-- An import record `\x7b type, source \x7d`; `source` is the specifier with
its quotes stripped. -/
structure ImportSpec where
  itype : ImportKind
  source : JSStr
deriving DecidableEq, Repr

/-- Export record kinds: `named`, `default` (here `dflt`) and `all`. -/
inductive ExportKind where
  | named
  | dflt
  | all
deriving DecidableEq, Repr

/-- An export record `\x7b type, names?, source? \x7d`. -/
structure ExportSpec where
  etype : ExportKind
  names : List JSStr := []
  source : Option JSStr := none
deriving DecidableEq, Repr

/-- The `peek` helper of `findModuleSyntax`:
`tokens[i] || tokens[tokens.length - 1]`.  On the token lists this is applied
to, the last entry is the `eof` token, which therefore doubles as the
out-of-range default (the extra `getD` default is unreachable for nonempty
lists). -/
def peekTok (tokens : List Token) (i : Nat) : Token :=
  (tokens[i]?).getD ((tokens[tokens.length - 1]?).getD ⟨TokType.eof, [], 0, 0⟩)

/-- Import-branch skip loop of `findModuleSyntax`: consume tokens while the
next token is neither a keyword with value `from` nor `eof`; returns the
index at which it stops. -/
def skipUntilFromKw (tokens : List Token) : Nat → Nat → Nat
  | 0, i => i
  | fuel+1, i =>
    let next := peekTok tokens i
    if ¬(next.type = TokType.keyword ∧ next.value = str "from") ∧ next.type ≠ TokType.eof then
      skipUntilFromKw tokens fuel (i+1)
    else i

/-- Statement-end skip loop of `findModuleSyntax`: consume tokens while the
peeked token is not `eof` and its value is not the one-character `;` (note
the two-character punctuator token of semicolon-plus-space does not
satisfy the comparison). -/
def skipToSemi (tokens : List Token) : Nat → Nat → Nat
  | 0, i => i
  | fuel+1, i =>
    let t := peekTok tokens i
    if t.type ≠ TokType.eof ∧ t.value ≠ str ";" then skipToSemi tokens fuel (i+1)
    else i

/-- Statement skip of `findModuleSyntax`: skip to the next `;` token (or
eof), then consume the `;` if present. -/
def endStmt (tokens : List Token) (i : Nat) : Nat :=
  let j := skipToSemi tokens (tokens.length + 1) i
  if (peekTok tokens j).value = str ";" then j + 1 else j

/-- Name-collection loop of the `export \x7b a, b as c \x7d` branch: consume
tokens, collecting identifiers, until a `\x7d` punctuator is consumed or eof
is reached; returns the names and the index after the loop. -/
def collectExportNames (tokens : List Token) : Nat → Nat → List JSStr → List JSStr × Nat
  | 0, i, names => (names, i)
  | fuel+1, i, names =>
    let t := peekTok tokens i
    if t.type = TokType.eof then (names, i)
    else if t.type = TokType.identifier then
      collectExportNames tokens fuel (i+1) (names ++ [t.value])
    else if t.type = TokType.punctuator ∧ t.value = str "\x7d" then (names, i+1)
    else collectExportNames tokens fuel (i+1) names

/-- Main loop of `findModuleSyntax`, fuel-indexed on the number of outer
iterations (each outer iteration consumes at least one token, so
`tokens.length + 1` units of fuel suffice).  The branch structure mirrors the
source: an `import` keyword starts the import branch, an `export` keyword the
export branch with its `*` / `default` / `\x7b...\x7d` / declaration-keyword
sub-branches, and any other token is consumed by the `consume()` at the
bottom of the loop (which the export branch also falls through to when no
sub-branch matches). -/
def findModuleSyntaxAux (tokens : List Token) :
    Nat → Nat → List ImportSpec → List ExportSpec → List ImportSpec × List ExportSpec
  | 0, _, imps, exps => (imps, exps)
  | fuel+1, i, imps, exps =>
    if i < tokens.length then
      let t := peekTok tokens i
      if t.type = TokType.keyword ∧ t.value = str "import" then
        -- consume `import`
        let i1 := i + 1
        let next := peekTok tokens i1
        if next.type = TokType.stringLit then
          -- import "side-effect";
          findModuleSyntaxAux tokens fuel (endStmt tokens (i1+1))
            (imps ++ [⟨ImportKind.sideEffect, innerOf next.value⟩]) exps
        else
          let i2 := skipUntilFromKw tokens (tokens.length + 1) i1
          let next2 := peekTok tokens i2
          if next2.type = TokType.keyword ∧ next2.value = str "from" then
            let srcTok := peekTok tokens (i2+1)
            if srcTok.type = TokType.stringLit then
              findModuleSyntaxAux tokens fuel (endStmt tokens (i2+2))
                (imps ++ [⟨ImportKind.fromImport, innerOf srcTok.value⟩]) exps
            else
              findModuleSyntaxAux tokens fuel (endStmt tokens (i2+1)) imps exps
          else
            findModuleSyntaxAux tokens fuel (endStmt tokens i2) imps exps
      else if t.type = TokType.keyword ∧ t.value = str "export" then
        -- consume `export`
        let i1 := i + 1
        let n := peekTok tokens i1
        if n.type = TokType.punctuator ∧ n.value = str "*" then
          let fromTok := peekTok tokens (i1+1)
          if fromTok.type = TokType.keyword ∧ fromTok.value = str "from" then
            let srcTok := peekTok tokens (i1+2)
            if srcTok.type = TokType.stringLit then
              findModuleSyntaxAux tokens fuel (endStmt tokens (i1+3)) imps
                (exps ++ [⟨ExportKind.all, [], some (innerOf srcTok.value)⟩])
            else
              findModuleSyntaxAux tokens fuel (endStmt tokens (i1+2)) imps exps
          else
            findModuleSyntaxAux tokens fuel (endStmt tokens (i1+1)) imps
              (exps ++ [⟨ExportKind.all, [], none⟩])
        else if n.type = TokType.keyword ∧ n.value = str "default" then
          findModuleSyntaxAux tokens fuel (endStmt tokens i1) imps
            (exps ++ [⟨ExportKind.dflt, [], none⟩])
        else if n.type = TokType.punctuator ∧ n.value = str "\x7b" then
          let r := collectExportNames tokens (tokens.length + 1) (i1+1) []
          findModuleSyntaxAux tokens fuel (endStmt tokens r.2) imps
            (exps ++ [⟨ExportKind.named, r.1, none⟩])
        else if n.type = TokType.keyword then
          -- export const/let/var/function/class name ...
          let idTok := peekTok tokens (i1+1)
          if idTok.type = TokType.identifier then
            findModuleSyntaxAux tokens fuel (endStmt tokens (i1+1)) imps
              (exps ++ [⟨ExportKind.named, [idTok.value], none⟩])
          else
            findModuleSyntaxAux tokens fuel (endStmt tokens (i1+1)) imps exps
        else
          -- no sub-branch matched: the bottom consume() eats the token at i1
          findModuleSyntaxAux tokens fuel (i1+1) imps exps
      else
        findModuleSyntaxAux tokens fuel (i+1) imps exps
    else (imps, exps)

/-- The module-syntax extractor `findModuleSyntax` of `src/parser.js`. -/
def findModuleSyntax (tokens : List Token) : List ImportSpec × List ExportSpec :=
  findModuleSyntaxAux tokens (tokens.length + 1) 0 [] []

/-- Minifier options; only `keepComments` exists (default `false`). -/
structure MinifyOptions where
  keepComments : Bool := false

/-- Truthiness-and-word-likeness test `isWordLike(tok)` of `Minifier.minify`
applied to a possibly-absent token. -/
def isWordLikeO : Option Token → Bool
  | some t =>
    t.type = TokType.identifier || t.type = TokType.keyword || t.type = TokType.number
  | none => false

/-- Loop body of pass 1 of `Minifier.minify`: skip `comment` tokens, rewrite
identifier/keyword tokens with value `true` to synthetic `code` tokens with
value `!0` and with value `false` to `!1`, and push everything else
unchanged. -/
def minifyStep (transformed : List Token) (t : Token) : List Token :=
  if t.type = TokType.comment then transformed
  else if (t.type = TokType.identifier ∨ t.type = TokType.keyword) ∧ t.value = str "true" then
    transformed ++ [{ t with type := TokType.codeGen, value := str "!0" }]
  else if (t.type = TokType.identifier ∨ t.type = TokType.keyword) ∧ t.value = str "false" then
    transformed ++ [{ t with type := TokType.codeGen, value := str "!1" }]
  else transformed ++ [t]

/-- Pass 1 of `Minifier.minify` as the push loop over the token list. -/
def minifyTransform (tokens : List Token) : List Token :=
  tokens.foldl minifyStep []

/-- Pass 2 of `Minifier.minify`: emit tokens in order; a whitespace token
becomes a single space iff the previous significant token and the next
non-whitespace token are both word-like, and is dropped otherwise. -/
def collapseWs : List Token → Option Token → JSStr
  | [], _ => []
  | tok :: rest, prevSignificant =>
    if tok.type = TokType.whitespace then
      (if isWordLikeO prevSignificant &&
          isWordLikeO ((rest.dropWhile (fun t => t.type == TokType.whitespace)).head?) then
        [' ']
      else []) ++ collapseWs rest prevSignificant
    else
      tok.value ++ collapseWs rest
        (if tok.type ≠ TokType.whitespace ∧ tok.type ≠ TokType.comment then some tok
         else prevSignificant)

/-- `Minifier.minify` of `src/minification.js`: empty-after-trim sources give
the empty string; with `keepComments` the source is returned unchanged;
otherwise tokenize, transform, collapse whitespace and trim. -/
def minify (opts : MinifyOptions) (code : JSStr) : JSStr :=
  if jsTrim code = [] then []
  else if opts.keepComments then code
  else jsTrim (collapseWs (minifyTransform (tokenize code)) none)

/-- Obfuscator options with their source defaults. -/
structure ObfOptions where
  encodeStrings : Bool := true
  renameIdentifiers : Bool := false
  flattenIfs : Bool := false

/-- The do-not-rename globals set `OBFUSCATOR_GLOBALS` of
`src/obfuscation.js`. -/
def OBFUSCATOR_GLOBALS : List JSStr :=
  [str "window", str "global", str "globalThis", str "document", str "console",
   str "Math", str "Date", str "JSON", str "Array", str "Object", str "String",
   str "Number", str "Boolean", str "RegExp", str "Promise", str "Set",
   str "Map", str "Buffer", str "atob", str "undefined", str "NaN",
   str "Infinity", str "Error", str "TypeError", str "ReferenceError",
   str "SyntaxError", str "RangeError", str "eval", str "parseInt",
   str "parseFloat", str "isNaN", str "isFinite", str "encodeURI",
   str "decodeURI", str "encodeURIComponent", str "decodeURIComponent",
   str "require", str "module", str "exports", str "__dirname", str "__filename"]

/-- Lowercase hexadecimal digit characters, as produced by
`Number.prototype.toString(16)`. -/
def hexDigitChar (n : Nat) : Char :=
  if n < 10 then Char.ofNat ('0'.toNat + n) else Char.ofNat ('a'.toNat + (n - 10))

/-- Lowercase base-16 digit expansion of `n` (most significant digit first),
fuel-indexed; 8 units of fuel cover every code unit. -/
def toHexAux : Nat → Nat → List Char
  | 0, n => [hexDigitChar (n % 16)]
  | fuel+1, n =>
    if n < 16 then [hexDigitChar n] else toHexAux fuel (n / 16) ++ [hexDigitChar (n % 16)]

/-- `charCodeAt(i).toString(16).padStart(2, '0')` for one character. -/
def hexOfChar (c : Char) : List Char :=
  let ds := toHexAux 8 c.toNat
  if ds.length < 2 then '0' :: ds else ds

/-- The `toHexEscapes` helper of `Obfuscator.encodeStrings`: each code unit
becomes `\xHH` with lowercase two-digit hex, accumulated with `out += ...`. -/
def toHexEscapes (text : JSStr) : JSStr :=
  text.foldl (fun out c => out ++ ('\\' :: 'x' :: hexOfChar c)) []

/-- Loop body of `Obfuscator.encodeStrings`: re-emit a `string` token with
its inner text hex-escaped between its original quote character
(`tok.value[0]`), a `template` token without a `$\x7b` substring hex-escaped
between backticks (templates with interpolation are emitted verbatim), and
every other token verbatim. -/
def obfEmitStep (out : JSStr) (tok : Token) : JSStr :=
  if tok.type = TokType.stringLit then
    let quote := (tok.value[0]?).getD ' '
    out ++ (quote :: toHexEscapes (innerOf tok.value)) ++ [quote]
  else if tok.type = TokType.template then
    if ¬containsSub tok.value (str "$\x7b") then
      out ++ ('\x60' :: toHexEscapes (innerOf tok.value)) ++ ['\x60']
    else out ++ tok.value
  else out ++ tok.value

/-- The token loop of `Obfuscator.encodeStrings`, gated on the option. -/
def encodeStringsFn (opts : ObfOptions) (code : JSStr) : JSStr :=
  if ¬opts.encodeStrings then code
  else (tokenize code).foldl obfEmitStep []

/-- The base-52 alphabet of `Obfuscator.generateName`. -/
def CHARS52 : JSStr := str "abcdefghijklmnopqrstuvwxyzABCDEFGHIJKLMNOPQRSTUVWXYZ"

/-- `Obfuscator.generateName`: do-while `name = chars[n % 52] + name;
n = floor(n / 52) - 1; while (n >= 0)`, fuel-indexed (fuel `n + 1` always
suffices since `n` strictly decreases). -/
def generateName : Nat → Nat → JSStr
  | 0, n => [(CHARS52[n % 52]?).getD 'a']
  | fuel+1, n =>
    if n < 52 then [(CHARS52[n % 52]?).getD 'a']
    else generateName fuel (n / 52 - 1) ++ [(CHARS52[n % 52]?).getD 'a']

/-- `Obfuscator.shouldRenameIdentifier`: never rename keywords or listed
globals, and never rename a token whose previous non-whitespace token is a
`.` or `?.` punctuator (property access).  The backwards `while` loop over
indices is modelled by `take`, `reverse` and `dropWhile`. -/
def shouldRenameIdentifier (tokens : List Token) (index : Nat) : Bool :=
  let tok := (tokens[index]?).getD ⟨TokType.eof, [], 0, 0⟩
  if tok.type = TokType.keyword then false
  else if tok.value ∈ OBFUSCATOR_GLOBALS then false
  else
    match ((tokens.take index).reverse.dropWhile (fun t => t.type == TokType.whitespace)).head? with
    | some prev =>
      ¬(prev.type = TokType.punctuator ∧ (prev.value = str "." ∨ prev.value = str "?."))
    | none => true

/-- Small insertion-ordered map on association lists, mirroring JavaScript
`Map`: `get` finds the first binding. -/
def mGet {α : Type} (m : List (JSStr × α)) (k : JSStr) : Option α :=
  (m.find? (fun p => p.1 == k)).map Prod.snd

/-- JavaScript `Map.has`. -/
def mHas {α : Type} (m : List (JSStr × α)) (k : JSStr) : Bool := (mGet m k).isSome

/-- JavaScript `Map.set`: overwrite in place if the key is present (keeping
its insertion position), append otherwise. -/
def mSet {α : Type} (m : List (JSStr × α)) (k : JSStr) (v : α) : List (JSStr × α) :=
  if mHas m k then m.map (fun p => if p.1 == k then (k, v) else p) else m ++ [(k, v)]

/-- JavaScript `Set.add` on an insertion-ordered list model. -/
def sadd (s : List JSStr) (x : JSStr) : List JSStr := if x ∈ s then s else s ++ [x]

/-- Collect pass of `Obfuscator.renameIdentifiers`: walk tokens in order and
assign each not-yet-assigned renamable identifier the next generated name. -/
def renameCollect (tokens : List Token) : List (JSStr × JSStr) :=
  (List.range tokens.length).foldl (fun idMap i =>
    let tok := (tokens[i]?).getD ⟨TokType.eof, [], 0, 0⟩
    if tok.type ≠ TokType.identifier then idMap
    else if ¬shouldRenameIdentifier tokens i then idMap
    else if mHas idMap tok.value then idMap
    else mSet idMap tok.value (generateName (idMap.length + 1) idMap.length)) []

/-- `Obfuscator.renameIdentifiers` of `src/obfuscation.js`: a no-op when the
option is off; otherwise the collect pass followed by the rewrite pass
(`renamed || tok.value`). -/
def renameIdentifiersFn (opts : ObfOptions) (code : JSStr) : JSStr :=
  if ¬opts.renameIdentifiers then code
  else
    let tokens := tokenize code
    let idMap := renameCollect tokens
    (List.range tokens.length).foldl (fun out i =>
      let tok := (tokens[i]?).getD ⟨TokType.eof, [], 0, 0⟩
      if tok.type = TokType.identifier ∧ shouldRenameIdentifier tokens i then
        out ++ ((mGet idMap tok.value).getD tok.value)
      else out ++ tok.value) []

/-- `Obfuscator.flattenControlFlow`: returns the code unchanged whether or
not `flattenIfs` is set. -/
def flattenControlFlow (opts : ObfOptions) (code : JSStr) : JSStr :=
  if ¬opts.flattenIfs then code else code

/-- `Obfuscator.obfuscate`: rename identifiers, then encode strings, then
flatten control flow, each pass gated by its option.  The per-call option
merge of the source is not modelled separately: `opts` plays the role of the
merged options, which the inner passes also read. -/
def obfuscate (opts : ObfOptions) (code : JSStr) : JSStr :=
  let out1 := if opts.renameIdentifiers then renameIdentifiersFn opts code else code
  let out2 := if opts.encodeStrings then encodeStringsFn opts out1 else out1
  if opts.flattenIfs then flattenControlFlow opts out2 else out2

/-- An insertion-ordered module map `id → source`, the JavaScript `Map`
handed to `TreeShaker` and `Bundler`. -/
abbrev ModuleMap := List (JSStr × JSStr)

/-- The four per-module tables built by `TreeShaker.buildDependencyGraph`. -/
structure GraphData where
  graph : List (JSStr × List JSStr)
  exportMap : List (JSStr × List JSStr)
  reexports : List (JSStr × List JSStr)
  sideEffects : List (JSStr × Bool)

/-- Side-effect detection loop of `TreeShaker.buildDependencyGraph`: skip
`identifier` tokens with value `import`/`export`; then, for `identifier` or
`punctuator` tokens, flag the module iff the token is an `identifier` with
value `new`.  (The tokenizer classifies `new` as a `keyword`, so the flag can
never be set; the loop is embedded verbatim nonetheless.) -/
def moduleHasSideEffects (tokens : List Token) : Bool :=
  tokens.any (fun tok =>
    decide (¬(tok.type = TokType.identifier ∧
        (tok.value = str "import" ∨ tok.value = str "export")) ∧
      (tok.type = TokType.identifier ∨ tok.type = TokType.punctuator) ∧
      tok.type = TokType.identifier ∧ tok.value = str "new"))

/-- `TreeShaker.buildDependencyGraph`: tokenize each module, extract module
syntax, and record import sources, export names (`default` and `*` as
reserved names), re-export sources and the side-effect flag. -/
def buildDependencyGraph (M : ModuleMap) : GraphData :=
  M.foldl (fun gd p =>
    let tokens := tokenize p.2
    let ms := findModuleSyntax tokens
    let imports := ms.1.foldl (fun acc imp =>
      if imp.source ≠ [] then sadd acc imp.source else acc) []
    let er := ms.2.foldl (fun (er : List JSStr × List JSStr) exp =>
      if exp.etype = ExportKind.dflt then (sadd er.1 (str "default"), er.2)
      else if exp.etype = ExportKind.named then (exp.names.foldl sadd er.1, er.2)
      else
        (sadd er.1 (str "*"),
         match exp.source with
         | some src => if src ≠ [] then sadd er.2 src else er.2
         | none => er.2)) ([], [])
    ⟨mSet gd.graph p.1 imports, mSet gd.exportMap p.1 er.1,
     mSet gd.reexports p.1 er.2, mSet gd.sideEffects p.1 (moduleHasSideEffects tokens)⟩)
    ⟨[], [], [], []⟩

/-- Fuel for the `markReachable` worklist: the loop pops one queue entry per
iteration, and entries are pushed only when a module is first visited, at
most its import and re-export counts many, so one plus the total number
of import and re-export edges bounds the iteration count; the extras are
slack. -/
def markFuel (gd : GraphData) : Nat :=
  gd.graph.foldl (fun a p => a + p.2.length) 0 +
    gd.reexports.foldl (fun a p => a + p.2.length) 0 + gd.graph.length + 2

/-- Termination measure of the `markReachable` worklist, used only to prove
that `markFuel` never runs out: the queue length plus, for every
not-yet-visited graph entry, one plus its import and re-export counts. -/
def markBound (gd : GraphData) (queue visited : List JSStr) : Nat :=
  queue.length +
    ((gd.graph.filter (fun p => decide (¬ p.1 ∈ visited))).map
      (fun p => 1 + p.2.length + ((mGet gd.reexports p.1).getD []).length)).sum

/-- Worklist loop of `TreeShaker.markReachable`: pop (from the end, as
`Array.prototype.pop` does), skip visited modules, merge each imported
complete export set of the dependency into its usage entry and enqueue it if
unvisited, enqueue unvisited re-export sources, ensure the popped module has
a usage entry, and add the `__side_effects__` sentinel when flagged. -/
def markReachableLoop (gd : GraphData) :
    Nat → List JSStr → List JSStr → List (JSStr × List JSStr) → List (JSStr × List JSStr)
  | 0, _, _, used => used
  | fuel+1, queue, visited, used =>
    match queue.getLast? with
    | none => used
    | some modName =>
      let queue1 := queue.dropLast
      if modName ∈ visited then markReachableLoop gd fuel queue1 visited used
      else
        let visited1 := visited ++ [modName]
        let imports := (mGet gd.graph modName).getD []
        let reexp := (mGet gd.reexports modName).getD []
        let qu := imports.foldl (fun (qu : List JSStr × List (JSStr × List JSStr)) dep =>
          let depExports := (mGet gd.exportMap dep).getD []
          let cur := (mGet qu.2 dep).getD []
          ((if dep ∈ visited1 then qu.1 else qu.1 ++ [dep]),
           mSet qu.2 dep (depExports.foldl sadd cur))) (queue1, used)
        let queue2 := reexp.foldl (fun q dep =>
          if dep ∈ visited1 then q else q ++ [dep]) qu.1
        let used2 := if mHas qu.2 modName then qu.2 else mSet qu.2 modName []
        let used3 :=
          if (mGet gd.sideEffects modName).getD false then
            mSet used2 modName (sadd ((mGet used2 modName).getD []) (str "__side_effects__"))
          else used2
        markReachableLoop gd fuel queue2 visited1 used3

/-- `TreeShaker.markReachable`, started from the entry module. -/
def markReachable (gd : GraphData) (entryModule : JSStr) : List (JSStr × List JSStr) :=
  markReachableLoop gd (markFuel gd) [entryModule] [] []

/-- `TreeShaker.eliminateDeadCodeForModule`: drop the module (empty source)
iff no export of it is used and it has no side-effect flag. -/
def eliminateDeadCodeForModule (gd : GraphData) (code : JSStr) (moduleName : JSStr)
    (usedExports : List JSStr) : JSStr :=
  if ¬(usedExports.length > 0) ∧ ¬((mGet gd.sideEffects moduleName).getD false) then []
  else code

/-- `TreeShaker.shake`: build the graph, mark reachable usage, and emit a new
map over the input entries in order, keeping the entry module intact. -/
def shake (M : ModuleMap) (entryModule : JSStr) : ModuleMap :=
  let gd := buildDependencyGraph M
  let used := markReachable gd entryModule
  M.foldl (fun output p =>
    let usedExports := (mGet used p.1).getD []
    if p.1 = entryModule then mSet output p.1 p.2
    else mSet output p.1 (eliminateDeadCodeForModule gd p.2 p.1 usedExports)) []

/-- `Bundler.extractImports`: the import specifiers found by
`findModuleSyntax` (`if (imp.source) deps.add(imp.source)`). -/
def extractImports (code : JSStr) : List JSStr :=
  (findModuleSyntax (tokenize code)).1.foldl (fun deps imp =>
    if imp.source ≠ [] then sadd deps imp.source else deps) []

/-- `Bundler.buildDependencyGraph`. -/
def buildBundlerGraph (M : ModuleMap) : List (JSStr × List JSStr) :=
  M.foldl (fun g p => mSet g p.1 (extractImports p.2)) []

/-- The recursive `visit` of `Bundler.topologicalSort` on the state
`(visited, order)`: skip visited or currently-visiting modules, visit the
dependencies that exist in the module map with the module added to the
visiting set, then append the module to `visited` and `order`.  The fuel
bounds the recursion depth; since the visiting set grows strictly along any
descent and only holds module-map keys, `M.length + 2` units suffice. -/
def visitDFS (M : ModuleMap) (graph : List (JSStr × List JSStr)) :
    Nat → JSStr → List JSStr → List JSStr × List JSStr → List JSStr × List JSStr
  | 0, _, _, st => st
  | fuel+1, modName, visiting, st =>
    if modName ∈ st.1 then st
    else if modName ∈ visiting then st
    else
      let st2 := ((mGet graph modName).getD []).foldl (fun acc dep =>
        if mHas M dep then visitDFS M graph fuel dep (modName :: visiting) acc else acc) st
      (st2.1 ++ [modName], st2.2 ++ [modName])

/-- `Bundler.topologicalSort`: depth-first from the entry (when it exists in
the map), then any remaining modules in insertion order. -/
def topologicalSort (M : ModuleMap) (graph : List (JSStr × List JSStr))
    (entryModule : JSStr) : List JSStr :=
  let st0 : List JSStr × List JSStr := ([], [])
  let st1 := if mHas M entryModule then visitDFS M graph (M.length + 2) entryModule [] st0 else st0
  (M.foldl (fun st p =>
    if p.1 ∈ st.1 then st else visitDFS M graph (M.length + 2) p.1 [] st) st1).2

/-- `Bundler.wrapModule`: the fixed wrapper template (a JavaScript template
literal starting and ending with a newline, followed by `.trim()`). -/
def wrapModule (name code : JSStr) : JSStr :=
  jsTrim (str "\n/* Module: " ++ name ++ str " */\n(function (modules, moduleName) \x7b\n  var module = \x7b exports: \x7b\x7d \x7d;\n  var exports = module.exports;\n  (function (require, module, exports) \x7b\n" ++
    code ++
    str "\n  \x7d)(function (id) \x7b return modules[id]; \x7d, module, exports);\n  modules[moduleName] = module.exports;\n\x7d)(__modules__, \x27" ++ name ++ str "\x27);\n")

/-- `Bundler.bundle`: build the graph, topologically order, and join the
prefix line, the wrapped modules and the entry line with blank lines.
(`detectCircularDependencies` only emits a `console.warn` diagnostic and does
not influence the returned string, so it is not modelled.) -/
def bundle (M : ModuleMap) (entryModule : JSStr) : JSStr :=
  let graph := buildBundlerGraph M
  let order := topologicalSort M graph entryModule
  List.intercalate (str "\n\n")
    ([str "var __modules__ = \x7b\x7d;"] ++
     order.map (fun name => wrapModule name ((mGet M name).getD [])) ++
     [str "var __entry__ = __modules__[\x27" ++ entryModule ++ str "\x27];"])

/-- The module marker `/* Module: <id> */` asserted on by the bundler
claims. -/
def moduleMarker (id : JSStr) : JSStr := str "/* Module: " ++ id ++ str " */"

/-- Claim-side description of the token rewrite of the minifier, written
from the words of the specification: drop comments; an identifier/keyword token with value
`true` becomes a synthetic token with value `!0`, one with value `false`
becomes `!1`; every other token (in particular `null`) is unrewritten.  The
source pass is proved equal to `filterMap` of this description. -/
def specBoolRewrite (t : Token) : Option Token :=
  if t.type = TokType.comment then none
  else if (t.type = TokType.identifier ∨ t.type = TokType.keyword) ∧ t.value = str "true" then
    some { t with type := TokType.codeGen, value := str "!0" }
  else if (t.type = TokType.identifier ∨ t.type = TokType.keyword) ∧ t.value = str "false" then
    some { t with type := TokType.codeGen, value := str "!1" }
  else some t

/-- Claim-side description of the string encoding of the obfuscator,
written from the words of the specification: a `string` token with quote character `q` is
re-emitted as `q<encoded>q` with its inner text replaced by `\xHH` sequences;
a `template` token is encoded the same way exactly when its value contains no
`$\x7b` substring and is emitted verbatim otherwise; all other tokens are
emitted verbatim. -/
def specEncodeTok (t : Token) : JSStr :=
  if t.type = TokType.stringLit then
    let q := (t.value[0]?).getD ' '
    (q :: toHexEscapes (innerOf t.value)) ++ [q]
  else if t.type = TokType.template then
    if containsSub t.value (str "$\x7b") then t.value
    else ('\x60' :: toHexEscapes (innerOf t.value)) ++ ['\x60']
  else t.value

/-- Concrete module map for the side-effect claim: an entry with empty
source plus an unimported module whose body is `new Date();`. -/
def c3Modules : ModuleMap :=
  [(str "./entry.js", str ""), (str "./fx.js", str "new Date();")]

/-- Concrete minifier input of the boolean-shortening scenario. -/
def c6Input : JSStr := str "if (true) \x7b a = false; b = null; \x7d"

/-- Source of the entry module of the bundler-ordering scenario. -/
def c8IndexSrc : JSStr :=
  str "import \x7b foo \x7d from \x27./util.js\x27; console.log(foo());"

/-- Source of the dependency module of the bundler-ordering scenario. -/
def c8UtilSrc : JSStr := str "export function foo()\x7b return 1; \x7d"

/-- Concrete module map of the bundler-ordering scenario: the entry imports
`./util.js`. -/
def c8Modules : ModuleMap :=
  [(str "./index.js", c8IndexSrc), (str "./util.js", c8UtilSrc)]

/-- Concrete obfuscator input of the hex-encoding scenario. -/
def c9Input : JSStr := str "const secret = \"Hi\";"

theorem getElem?_some_lt {s : JSStr} {j : Nat} {c : Char} (h : s[j]? = some c) :
    j < s.length := by
  by_contra hge
  rw [List.getElem?_eq_none (Nat.le_of_not_lt hge)] at h
  exact Option.noConfusion h

theorem scanWhile_ge (s : JSStr) (p : Char → Bool) :
    ∀ fuel j, j ≤ scanWhile s p fuel j := by
  intro fuel
  induction fuel with
  | zero => intro j; exact Nat.le_refl j
  | succ n ih =>
    intro j
    simp only [scanWhile]
    cases h : s[j]? with
    | none => exact Nat.le_refl j
    | some c =>
      by_cases hp : p c
      · simp only [hp, if_true]
        exact Nat.le_trans (Nat.le_succ j) (ih (j+1))
      · simp only [hp, if_false]
        exact Nat.le_refl j

theorem scanWhile_le (s : JSStr) (p : Char → Bool) :
    ∀ fuel j, scanWhile s p fuel j ≤ max j s.length := by
  intro fuel
  induction fuel with
  | zero => intro j; exact Nat.le_max_left j _
  | succ n ih =>
    intro j
    simp only [scanWhile]
    cases h : s[j]? with
    | none => exact Nat.le_max_left j _
    | some c =>
      have hj : j < s.length := getElem?_some_lt h
      by_cases hp : p c
      · simp only [hp, if_true]
        have := ih (j+1)
        omega
      · simp only [hp, if_false]
        exact Nat.le_max_left j _

theorem scanWhile_lt (s : JSStr) (p : Char → Bool) (fuel j : Nat) (c : Char)
    (h : s[j]? = some c) (hp : p c = true) :
    j + 1 ≤ scanWhile s p (fuel+1) j := by
  simp only [scanWhile, h, hp, if_true]
  exact scanWhile_ge s p fuel (j+1)

theorem scanWhile_stop (s : JSStr) (p : Char → Bool) (fuel j : Nat) (c : Char)
    (h : s[j]? = some c) (hp : p c = false) :
    scanWhile s p (fuel+1) j = j := by
  simp [scanWhile, h, hp]

theorem scanBlockBody_ge (s : JSStr) :
    ∀ fuel j, j ≤ scanBlockBody s fuel j := by
  intro fuel
  induction fuel with
  | zero => intro j; exact Nat.le_refl j
  | succ n ih =>
    intro j
    simp only [scanBlockBody]
    cases h : s[j]? with
    | none => exact Nat.le_refl j
    | some c =>
      by_cases hc : c = '*' ∧ s[j+1]? = some '/'
      · simp only [if_pos hc]; exact Nat.le_refl j
      · simp only [if_neg hc]
        exact Nat.le_trans (Nat.le_succ j) (ih (j+1))

theorem scanBlockBody_le (s : JSStr) :
    ∀ fuel j, scanBlockBody s fuel j ≤ max j s.length := by
  intro fuel
  induction fuel with
  | zero => intro j; exact Nat.le_max_left j _
  | succ n ih =>
    intro j
    simp only [scanBlockBody]
    cases h : s[j]? with
    | none => exact Nat.le_max_left j _
    | some c =>
      have hj : j < s.length := getElem?_some_lt h
      by_cases hc : c = '*' ∧ s[j+1]? = some '/'
      · simp only [if_pos hc]; exact Nat.le_max_left j _
      · simp only [if_neg hc]
        have := ih (j+1)
        omega

theorem scanString_ge (s : JSStr) (quote : Char) :
    ∀ fuel j, j ≤ scanString s quote fuel j := by
  intro fuel
  induction fuel with
  | zero => intro j; exact Nat.le_refl j
  | succ n ih =>
    intro j
    simp only [scanString]
    cases h : s[j]? with
    | none => exact Nat.le_refl j
    | some c =>
      by_cases hb : c = '\\'
      · simp only [if_pos hb]
        exact Nat.le_trans (Nat.le_add_right j 2) (ih (j+2))
      · by_cases hq : c = quote
        · simp only [if_neg hb, if_pos hq]; omega
        · simp only [if_neg hb, if_neg hq]
          exact Nat.le_trans (Nat.le_succ j) (ih (j+1))

theorem scanString_le (s : JSStr) (quote : Char) :
    ∀ fuel j, scanString s quote fuel j ≤ max j (s.length + 1) := by
  intro fuel
  induction fuel with
  | zero => intro j; exact Nat.le_max_left j _
  | succ n ih =>
    intro j
    simp only [scanString]
    cases h : s[j]? with
    | none => exact Nat.le_max_left j _
    | some c =>
      have hj : j < s.length := getElem?_some_lt h
      by_cases hb : c = '\\'
      · simp only [if_pos hb]
        have := ih (j+2)
        omega
      · by_cases hq : c = quote
        · simp only [if_neg hb, if_pos hq]; omega
        · simp only [if_neg hb, if_neg hq]
          have := ih (j+1)
          omega

theorem scanInterp_ge (s : JSStr) :
    ∀ fuel j depth, j ≤ scanInterp s fuel j depth := by
  intro fuel
  induction fuel with
  | zero => intro j depth; exact Nat.le_refl j
  | succ n ih =>
    intro j depth
    simp only [scanInterp]
    by_cases hd : depth = 0
    · simp only [if_pos hd]; exact Nat.le_refl j
    · simp only [if_neg hd]
      cases h : s[j]? with
      | none => exact Nat.le_refl j
      | some d =>
        by_cases hb : d = '\\'
        · simp only [if_pos hb]
          exact Nat.le_trans (Nat.le_add_right j 2) (ih (j+2) depth)
        · simp only [if_neg hb]
          exact Nat.le_trans (Nat.le_succ j) (ih (j+1) _)

theorem scanInterp_le (s : JSStr) :
    ∀ fuel j depth, scanInterp s fuel j depth ≤ max j (s.length + 1) := by
  intro fuel
  induction fuel with
  | zero => intro j depth; exact Nat.le_max_left j _
  | succ n ih =>
    intro j depth
    simp only [scanInterp]
    by_cases hd : depth = 0
    · simp only [if_pos hd]; exact Nat.le_max_left j _
    · simp only [if_neg hd]
      cases h : s[j]? with
      | none => exact Nat.le_max_left j _
      | some d =>
        have hj : j < s.length := getElem?_some_lt h
        by_cases hb : d = '\\'
        · simp only [if_pos hb]
          have := ih (j+2) depth
          omega
        · simp only [if_neg hb]
          have := ih (j+1) (if d = '\x7b' then depth + 1 else if d = '\x7d' then depth - 1 else depth)
          omega

theorem scanTemplate_ge (s : JSStr) :
    ∀ fuel j, j ≤ scanTemplate s fuel j := by
  intro fuel
  induction fuel with
  | zero => intro j; exact Nat.le_refl j
  | succ n ih =>
    intro j
    simp only [scanTemplate]
    cases h : s[j]? with
    | none => exact Nat.le_refl j
    | some c =>
      by_cases hb : c = '\\'
      · simp only [if_pos hb]
        exact Nat.le_trans (Nat.le_add_right j 2) (ih (j+2))
      · by_cases ht : c = '\x60'
        · simp only [if_neg hb, if_pos ht]; omega
        · by_cases hi : c = '$' ∧ s[j+1]? = some '\x7b'
          · simp only [if_neg hb, if_neg ht, if_pos hi]
            have h1 := scanInterp_ge s (s.length + 1) (j+2) 1
            have h2 := ih (scanInterp s (s.length + 1) (j+2) 1)
            omega
          · simp only [if_neg hb, if_neg ht, if_neg hi]
            exact Nat.le_trans (Nat.le_succ j) (ih (j+1))

theorem scanTemplate_le (s : JSStr) :
    ∀ fuel j, scanTemplate s fuel j ≤ max j (s.length + 1) := by
  intro fuel
  induction fuel with
  | zero => intro j; exact Nat.le_max_left j _
  | succ n ih =>
    intro j
    simp only [scanTemplate]
    cases h : s[j]? with
    | none => exact Nat.le_max_left j _
    | some c =>
      have hj : j < s.length := getElem?_some_lt h
      by_cases hb : c = '\\'
      · simp only [if_pos hb]
        have := ih (j+2)
        omega
      · by_cases ht : c = '\x60'
        · simp only [if_neg hb, if_pos ht]; omega
        · by_cases hi : c = '$' ∧ s[j+1]? = some '\x7b'
          · simp only [if_neg hb, if_neg ht, if_pos hi]
            have h1 := scanInterp_le s (s.length + 1) (j+2) 1
            have h2 := ih (scanInterp s (s.length + 1) (j+2) 1)
            omega
          · simp only [if_neg hb, if_neg ht, if_neg hi]
            have := ih (j+1)
            omega

theorem scanRegexBody_ge (s : JSStr) :
    ∀ fuel j inClass, j ≤ scanRegexBody s fuel j inClass := by
  intro fuel
  induction fuel with
  | zero => intro j inClass; exact Nat.le_refl j
  | succ n ih =>
    intro j inClass
    simp only [scanRegexBody]
    cases h : s[j]? with
    | none => exact Nat.le_refl j
    | some c =>
      by_cases hb : c = '\\'
      · simp only [if_pos hb]
        exact Nat.le_trans (Nat.le_add_right j 2) (ih (j+2) inClass)
      · by_cases ho : c = '['
        · simp only [if_neg hb, if_pos ho]
          exact Nat.le_trans (Nat.le_succ j) (ih (j+1) true)
        · by_cases hc : c = ']' ∧ inClass
          · simp only [if_neg hb, if_neg ho, if_pos hc]
            exact Nat.le_trans (Nat.le_succ j) (ih (j+1) false)
          · by_cases hs : c = '/' ∧ ¬inClass
            · simp only [if_neg hb, if_neg ho, if_neg hc, if_pos hs]; omega
            · simp only [if_neg hb, if_neg ho, if_neg hc, if_neg hs]
              exact Nat.le_trans (Nat.le_succ j) (ih (j+1) inClass)

theorem scanRegexBody_le (s : JSStr) :
    ∀ fuel j inClass, scanRegexBody s fuel j inClass ≤ max j (s.length + 1) := by
  intro fuel
  induction fuel with
  | zero => intro j inClass; exact Nat.le_max_left j _
  | succ n ih =>
    intro j inClass
    simp only [scanRegexBody]
    cases h : s[j]? with
    | none => exact Nat.le_max_left j _
    | some c =>
      have hj : j < s.length := getElem?_some_lt h
      by_cases hb : c = '\\'
      · simp only [if_pos hb]
        have := ih (j+2) inClass
        omega
      · by_cases ho : c = '['
        · simp only [if_neg hb, if_pos ho]
          have := ih (j+1) true
          omega
        · by_cases hc : c = ']' ∧ inClass
          · simp only [if_neg hb, if_neg ho, if_pos hc]
            have := ih (j+1) false
            omega
          · by_cases hs : c = '/' ∧ ¬inClass
            · simp only [if_neg hb, if_neg ho, if_neg hc, if_pos hs]; omega
            · simp only [if_neg hb, if_neg ho, if_neg hc, if_neg hs]
              have := ih (j+1) inClass
              omega

theorem scanWhile_stable (s : JSStr) (p : Char → Bool) :
    ∀ f1 f2 j, s.length - j < f1 → s.length - j < f2 →
      scanWhile s p f1 j = scanWhile s p f2 j := by
  intro f1
  induction f1 with
  | zero => intro f2 j h1 h2; omega
  | succ n ih =>
    intro f2 j h1 h2
    cases f2 with
    | zero => omega
    | succ m =>
      simp only [scanWhile]
      cases h : s[j]? with
      | none => rfl
      | some c =>
        have hj : j < s.length := getElem?_some_lt h
        by_cases hp : p c
        · simp only [hp, if_true]
          exact ih m (j+1) (by omega) (by omega)
        · simp [hp]

theorem scanBlockBody_stable (s : JSStr) :
    ∀ f1 f2 j, s.length - j < f1 → s.length - j < f2 →
      scanBlockBody s f1 j = scanBlockBody s f2 j := by
  intro f1
  induction f1 with
  | zero => intro f2 j h1 h2; omega
  | succ n ih =>
    intro f2 j h1 h2
    cases f2 with
    | zero => omega
    | succ m =>
      simp only [scanBlockBody]
      cases h : s[j]? with
      | none => rfl
      | some c =>
        have hj : j < s.length := getElem?_some_lt h
        by_cases hc : c = '*' ∧ s[j+1]? = some '/'
        · simp [hc]
        · simp only [if_neg hc]
          exact ih m (j+1) (by omega) (by omega)

theorem scanString_stable (s : JSStr) (quote : Char) :
    ∀ f1 f2 j, s.length - j < f1 → s.length - j < f2 →
      scanString s quote f1 j = scanString s quote f2 j := by
  intro f1
  induction f1 with
  | zero => intro f2 j h1 h2; omega
  | succ n ih =>
    intro f2 j h1 h2
    cases f2 with
    | zero => omega
    | succ m =>
      simp only [scanString]
      cases h : s[j]? with
      | none => rfl
      | some c =>
        have hj : j < s.length := getElem?_some_lt h
        by_cases hb : c = '\\'
        · simp only [if_pos hb]
          exact ih m (j+2) (by omega) (by omega)
        · by_cases hq : c = quote
          · simp only [if_neg hb, if_pos hq]
          · simp only [if_neg hb, if_neg hq]
            exact ih m (j+1) (by omega) (by omega)

theorem scanInterp_stable (s : JSStr) :
    ∀ f1 f2 j depth, s.length - j < f1 → s.length - j < f2 →
      scanInterp s f1 j depth = scanInterp s f2 j depth := by
  intro f1
  induction f1 with
  | zero => intro f2 j depth h1 h2; omega
  | succ n ih =>
    intro f2 j depth h1 h2
    cases f2 with
    | zero => omega
    | succ m =>
      simp only [scanInterp]
      by_cases hd : depth = 0
      · simp [hd]
      · simp only [if_neg hd]
        cases h : s[j]? with
        | none => rfl
        | some d =>
          have hj : j < s.length := getElem?_some_lt h
          by_cases hb : d = '\\'
          · simp only [if_pos hb]
            exact ih m (j+2) depth (by omega) (by omega)
          · simp only [if_neg hb]
            exact ih m (j+1) _ (by omega) (by omega)

theorem scanTemplate_stable (s : JSStr) :
    ∀ f1 f2 j, s.length - j < f1 → s.length - j < f2 →
      scanTemplate s f1 j = scanTemplate s f2 j := by
  intro f1
  induction f1 with
  | zero => intro f2 j h1 h2; omega
  | succ n ih =>
    intro f2 j h1 h2
    cases f2 with
    | zero => omega
    | succ m =>
      simp only [scanTemplate]
      cases h : s[j]? with
      | none => rfl
      | some c =>
        have hj : j < s.length := getElem?_some_lt h
        by_cases hb : c = '\\'
        · simp only [if_pos hb]
          exact ih m (j+2) (by omega) (by omega)
        · by_cases ht : c = '\x60'
          · simp [hb, ht]
          · by_cases hi : c = '$' ∧ s[j+1]? = some '\x7b'
            · simp only [if_neg hb, if_neg ht, if_pos hi]
              have hg := scanInterp_ge s (s.length + 1) (j+2) 1
              exact ih m (scanInterp s (s.length + 1) (j+2) 1) (by omega) (by omega)
            · simp only [if_neg hb, if_neg ht, if_neg hi]
              exact ih m (j+1) (by omega) (by omega)

theorem scanRegexBody_stable (s : JSStr) :
    ∀ f1 f2 j inClass, s.length - j < f1 → s.length - j < f2 →
      scanRegexBody s f1 j inClass = scanRegexBody s f2 j inClass := by
  intro f1
  induction f1 with
  | zero => intro f2 j inClass h1 h2; omega
  | succ n ih =>
    intro f2 j inClass h1 h2
    cases f2 with
    | zero => omega
    | succ m =>
      simp only [scanRegexBody]
      cases h : s[j]? with
      | none => rfl
      | some c =>
        have hj : j < s.length := getElem?_some_lt h
        by_cases hb : c = '\\'
        · simp only [if_pos hb]
          exact ih m (j+2) inClass (by omega) (by omega)
        · by_cases ho : c = '['
          · simp only [if_neg hb, if_pos ho]
            exact ih m (j+1) true (by omega) (by omega)
          · by_cases hc : c = ']' ∧ inClass
            · simp only [if_neg hb, if_neg ho, if_pos hc]
              exact ih m (j+1) false (by omega) (by omega)
            · by_cases hs : c = '/' ∧ ¬inClass
              · simp [hb, ho, hc, hs]
              · simp only [if_neg hb, if_neg ho, if_neg hc, if_neg hs]
                exact ih m (j+1) inClass (by omega) (by omega)

theorem slice_length (s : JSStr) (i j : Nat) :
    (slice s i j).length = min (j - i) (s.length - i) := by
  simp [slice]

theorem punctMatchAt_pos {s : JSStr} {i : Nat} {m : JSStr}
    (h : punctMatchAt s i = some m) : 0 < m.length ∧ i + m.length ≤ s.length := by
  unfold punctMatchAt at h
  split_ifs at h with h3 h2 h1
  · cases h
    rw [slice_length]
    omega
  · cases h
    rw [slice_length]
    omega
  · cases h
    rw [slice_length]
    omega

theorem scanNumberEnd_spec (s : JSStr) (i : Nat) (ch : Char) (h : s[i]? = some ch)
    (hnum : isDecimalDigit ch = true ∨
      (ch = '.' ∧ ((s[i+1]?).map isDecimalDigit).getD false = true)) :
    i < scanNumberEnd s i ch ∧ scanNumberEnd s i ch ≤ s.length := by
  have hi : i < s.length := getElem?_some_lt h
  by_cases hhex : ch = '0' ∧ (s[i+1]? = some 'x' ∨ s[i+1]? = some 'X')
  · rw [scanNumberEnd, if_pos hhex]
    have hx : i + 1 < s.length := by
      rcases hhex.2 with hx | hx
      · exact getElem?_some_lt hx
      · exact getElem?_some_lt hx
    have h1 := scanWhile_ge s isHexDigit (s.length + 1) (i+2)
    have h2 := scanWhile_le s isHexDigit (s.length + 1) (i+2)
    omega
  · simp only [scanNumberEnd, if_neg hhex]
    split_ifs with hdot
    · have hj0 := scanWhile_ge s isDecimalDigit (s.length + 1) i
      have hj1 := scanWhile_le s isDecimalDigit (s.length + 1) i
      have hjlt : scanWhile s isDecimalDigit (s.length + 1) i < s.length :=
        getElem?_some_lt hdot.1
      have h1 := scanWhile_ge s isDecimalDigit (s.length + 1)
        (scanWhile s isDecimalDigit (s.length + 1) i + 1)
      have h2 := scanWhile_le s isDecimalDigit (s.length + 1)
        (scanWhile s isDecimalDigit (s.length + 1) i + 1)
      omega
    · rcases hnum with hd | ⟨hdotc, hnext⟩
      · have h1 := scanWhile_lt s isDecimalDigit s.length i ch h hd
        have h2 := scanWhile_le s isDecimalDigit (s.length + 1) i
        constructor
        · exact h1
        · omega
      · exfalso
        apply hdot
        have hstop : scanWhile s isDecimalDigit (s.length + 1) i = i := by
          apply scanWhile_stop s isDecimalDigit s.length i ch h
          rw [hdotc]
          decide
        rw [hstop]
        constructor
        · rw [hdotc] at h
          exact h
        · exact hnext

theorem scanTokenAt_spec (s : JSStr) (i : Nat) (ch : Char) (prev : Option Token)
    (h : s[i]? = some ch) :
    i < (scanTokenAt s i ch prev).2 ∧ (scanTokenAt s i ch prev).2 ≤ s.length + 1 ∧
      (scanTokenAt s i ch prev).1 ≠ TokType.eof := by
  have hi : i < s.length := getElem?_some_lt h
  unfold scanTokenAt
  split_ifs with h1 h2 h3 h4 h5 h6 h7 h8 h9
  · -- whitespace
    have hg := scanWhile_ge s isJsWs (s.length + 1) (i+1)
    have hl := scanWhile_le s isJsWs (s.length + 1) (i+1)
    refine ⟨by omega, by omega, by simp⟩
  · -- line comment
    have hn : i + 1 < s.length := getElem?_some_lt h2.2
    have hg := scanWhile_ge s notLineEnd (s.length + 1) (i+2)
    have hl := scanWhile_le s notLineEnd (s.length + 1) (i+2)
    refine ⟨by omega, by omega, by simp⟩
  · -- block comment
    have hg := scanBlockBody_ge s (s.length + 1) (i+2)
    refine ⟨by omega, by omega, by simp⟩
  · -- string literal
    have hg := scanString_ge s ch (s.length + 1) (i+1)
    have hl := scanString_le s ch (s.length + 1) (i+1)
    refine ⟨by omega, by omega, by simp⟩
  · -- template literal
    have hg := scanTemplate_ge s (s.length + 1) (i+1)
    have hl := scanTemplate_le s (s.length + 1) (i+1)
    refine ⟨by omega, by omega, by simp⟩
  · -- number literal
    have := scanNumberEnd_spec s i ch h h6
    refine ⟨this.1, by omega, by simp⟩
  · -- keyword
    have hg := scanWhile_ge s isIdentifierPart (s.length + 1) (i+1)
    have hl := scanWhile_le s isIdentifierPart (s.length + 1) (i+1)
    refine ⟨by omega, by omega, by simp⟩
  · -- identifier
    have hg := scanWhile_ge s isIdentifierPart (s.length + 1) (i+1)
    have hl := scanWhile_le s isIdentifierPart (s.length + 1) (i+1)
    refine ⟨by omega, by omega, by simp⟩
  · -- regex literal
    have hg1 := scanRegexBody_ge s (s.length + 1) (i+1) false
    have hl1 := scanRegexBody_le s (s.length + 1) (i+1) false
    have hg2 := scanWhile_ge s isFlagLetter (s.length + 1)
      (scanRegexBody s (s.length + 1) (i+1) false)
    have hl2 := scanWhile_le s isFlagLetter (s.length + 1)
      (scanRegexBody s (s.length + 1) (i+1) false)
    refine ⟨by omega, by omega, by simp⟩
  · -- punctuator or fallback
    cases hm : punctMatchAt s i with
    | some m =>
      have := punctMatchAt_pos hm
      refine ⟨?_, ?_, ?_⟩
      · show i < i + m.length
        omega
      · show i + m.length ≤ s.length + 1
        omega
      · show TokType.punctuator ≠ TokType.eof
        simp
    | none =>
      refine ⟨?_, ?_, ?_⟩
      · show i < i + 1
        omega
      · show i + 1 ≤ s.length + 1
        omega
      · show TokType.punctuator ≠ TokType.eof
        simp

theorem slice_append_drop (s : JSStr) (i j : Nat) (hij : i ≤ j) :
    slice s i j ++ s.drop j = s.drop i := by
  unfold slice
  have hdj : s.drop j = (s.drop i).drop (j - i) := by
    rw [List.drop_drop]
    congr 1
    omega
  rw [hdj, List.take_append_drop]

theorem getLast?_cons_of_some {α : Type} (a x : α) (l : List α)
    (h : l.getLast? = some x) : (a :: l).getLast? = some x := by
  cases l with
  | nil => simp at h
  | cons b t =>
    rw [List.getLast?_cons_cons]
    exact h

theorem tokAux_flatten (s : JSStr) :
    ∀ fuel i prev, s.length - i < fuel →
      ((tokAux s fuel i prev).map Token.value).flatten = s.drop i := by
  intro fuel
  induction fuel with
  | zero => intro i prev h; omega
  | succ n ih =>
    intro i prev h
    cases hch : s[i]? with
    | none =>
      have hle : s.length ≤ i := by
        by_contra hlt
        rw [List.getElem?_eq_getElem (by omega)] at hch
        exact Option.noConfusion hch
      simp [tokAux, hch, List.drop_eq_nil_iff.mpr hle]
    | some ch =>
      obtain ⟨hlt, hle, -⟩ := scanTokenAt_spec s i ch prev hch
      have hi : i < s.length := getElem?_some_lt hch
      simp only [tokAux, hch, List.map_cons, List.flatten_cons]
      rw [ih _ _ (by omega)]
      exact slice_append_drop s i _ hlt.le

theorem tokAux_last (s : JSStr) :
    ∀ fuel i prev, s.length - i < fuel →
      (tokAux s fuel i prev).getLast? = some ⟨TokType.eof, [], s.length, s.length⟩ := by
  intro fuel
  induction fuel with
  | zero => intro i prev h; omega
  | succ n ih =>
    intro i prev h
    cases hch : s[i]? with
    | none => simp [tokAux, hch]
    | some ch =>
      obtain ⟨hlt, hle, -⟩ := scanTokenAt_spec s i ch prev hch
      have hi : i < s.length := getElem?_some_lt hch
      simp only [tokAux, hch]
      exact getLast?_cons_of_some _ _ _ (ih _ _ (by omega))

theorem tokAux_eof_count (s : JSStr) :
    ∀ fuel i prev, s.length - i < fuel →
      ((tokAux s fuel i prev).filter (fun t => t.type == TokType.eof)).length = 1 := by
  intro fuel
  induction fuel with
  | zero => intro i prev h; omega
  | succ n ih =>
    intro i prev h
    cases hch : s[i]? with
    | none => simp [tokAux, hch]
    | some ch =>
      obtain ⟨hlt, hle, hne⟩ := scanTokenAt_spec s i ch prev hch
      have hi : i < s.length := getElem?_some_lt hch
      have hbeq : (((⟨(scanTokenAt s i ch prev).1, slice s i (scanTokenAt s i ch prev).2, i,
          (scanTokenAt s i ch prev).2⟩ : Token).type == TokType.eof)) = false := by
        simp only [beq_eq_false_iff_ne]
        exact hne
      simp only [tokAux, hch, List.filter_cons, hbeq]
      simp only [Bool.false_eq_true, if_false]
      exact ih _ _ (by omega)

theorem tokAux_bounds (s : JSStr) :
    ∀ fuel i prev t, t ∈ tokAux s fuel i prev →
      t.start ≤ t.stop ∧ t.start ≤ s.length ∧ t.stop ≤ s.length + 1 ∧
        slice s t.start t.stop = t.value := by
  intro fuel
  induction fuel with
  | zero => intro i prev t ht; simp [tokAux] at ht
  | succ n ih =>
    intro i prev t ht
    cases hch : s[i]? with
    | none =>
      rw [tokAux, hch] at ht
      simp only [List.mem_singleton] at ht
      subst ht
      refine ⟨Nat.le_refl _, Nat.le_refl _, Nat.le_succ _, ?_⟩
      simp [slice]
    | some ch =>
      obtain ⟨hlt, hle, -⟩ := scanTokenAt_spec s i ch prev hch
      have hi : i < s.length := getElem?_some_lt hch
      rw [tokAux, hch] at ht
      simp only [List.mem_cons] at ht
      rcases ht with rfl | ht
      · exact ⟨hlt.le, hi.le, hle, rfl⟩
      · exact ih _ _ t ht

theorem tokAux_stable (s : JSStr) :
    ∀ f1 f2 i prev, s.length - i < f1 → s.length - i < f2 →
      tokAux s f1 i prev = tokAux s f2 i prev := by
  intro f1
  induction f1 with
  | zero => intro f2 i prev h1 h2; omega
  | succ n ih =>
    intro f2 i prev h1 h2
    cases f2 with
    | zero => omega
    | succ m =>
      cases hch : s[i]? with
      | none => rw [tokAux, tokAux, hch]
      | some ch =>
        obtain ⟨hlt, -, -⟩ := scanTokenAt_spec s i ch prev hch
        have hi : i < s.length := getElem?_some_lt hch
        rw [tokAux, tokAux, hch]
        simp only []
        rw [ih m (scanTokenAt s i ch prev).2 _ (by omega) (by omega)]

/-- The scanning loop of `tokenize` is fuel-independent above the threshold
`length - cursor`: every fuel at least `length + 1` computes the same token
list, so the canonical fuel choice of `tokenize` does not truncate the
scan. -/
theorem tokenize_fuel_irrelevant (s : JSStr) (fuel : Nat) (h : s.length < fuel) :
    tokAux s fuel 0 none = tokenize s := by
  rw [tokenize]
  exact tokAux_stable s fuel (s.length + 1) 0 none (by omega) (by omega)

theorem skipToSemi_ge (tokens : List Token) :
    ∀ fuel i, i ≤ skipToSemi tokens fuel i := by
  intro fuel
  induction fuel with
  | zero => intro i; exact Nat.le_refl i
  | succ n ih =>
    intro i
    rw [skipToSemi]
    split_ifs
    · exact Nat.le_trans (Nat.le_succ i) (ih (i+1))
    · exact Nat.le_refl i

theorem skipUntilFromKw_ge (tokens : List Token) :
    ∀ fuel i, i ≤ skipUntilFromKw tokens fuel i := by
  intro fuel
  induction fuel with
  | zero => intro i; exact Nat.le_refl i
  | succ n ih =>
    intro i
    rw [skipUntilFromKw]
    split_ifs
    · exact Nat.le_trans (Nat.le_succ i) (ih (i+1))
    · exact Nat.le_refl i

theorem collectExportNames_ge (tokens : List Token) :
    ∀ fuel i names, i ≤ (collectExportNames tokens fuel i names).2 := by
  intro fuel
  induction fuel with
  | zero => intro i names; exact Nat.le_refl i
  | succ n ih =>
    intro i names
    rw [collectExportNames]
    split_ifs
    · exact Nat.le_refl i
    · exact Nat.le_trans (Nat.le_succ i) (ih (i+1) _)
    · exact Nat.le_succ i
    · exact Nat.le_trans (Nat.le_succ i) (ih (i+1) _)

theorem endStmt_ge (tokens : List Token) (i : Nat) : i ≤ endStmt tokens i := by
  rw [endStmt]
  split_ifs
  · exact Nat.le_trans (skipToSemi_ge tokens _ i) (Nat.le_succ _)
  · exact skipToSemi_ge tokens _ i

theorem peekTok_of_getLast (tokens : List Token) (e : Token)
    (h : tokens.getLast? = some e) :
    ∀ i, tokens.length - 1 ≤ i → peekTok tokens i = e := by
  intro i hi
  have hne : tokens ≠ [] := by
    intro hn
    rw [hn] at h
    exact Option.noConfusion h
  have hpos : 0 < tokens.length := List.length_pos.mpr hne
  have hlast : tokens[tokens.length - 1]? = some e := by
    rw [← List.getLast?_eq_getElem?]
    exact h
  unfold peekTok
  by_cases hlt : i < tokens.length
  · rw [show i = tokens.length - 1 by omega, hlast]
    rfl
  · rw [List.getElem?_eq_none (by omega), hlast]
    rfl

theorem skipToSemi_stable (tokens : List Token) (e : Token)
    (hl : tokens.getLast? = some e) (he : e.type = TokType.eof) :
    ∀ f1 f2 i, tokens.length - i < f1 → tokens.length - i < f2 →
      skipToSemi tokens f1 i = skipToSemi tokens f2 i := by
  intro f1
  induction f1 with
  | zero => intro f2 i h1 h2; omega
  | succ n ih =>
    intro f2 i h1 h2
    cases f2 with
    | zero => omega
    | succ m =>
      rw [skipToSemi, skipToSemi]
      by_cases hcond : (peekTok tokens i).type ≠ TokType.eof ∧
          (peekTok tokens i).value ≠ str ";"
      · have hilt : i < tokens.length - 1 := by
          by_contra hge
          rw [peekTok_of_getLast tokens e hl i (by omega)] at hcond
          exact hcond.1 he
        rw [if_pos hcond, if_pos hcond]
        exact ih m (i+1) (by omega) (by omega)
      · rw [if_neg hcond, if_neg hcond]

theorem skipUntilFromKw_stable (tokens : List Token) (e : Token)
    (hl : tokens.getLast? = some e) (he : e.type = TokType.eof) :
    ∀ f1 f2 i, tokens.length - i < f1 → tokens.length - i < f2 →
      skipUntilFromKw tokens f1 i = skipUntilFromKw tokens f2 i := by
  intro f1
  induction f1 with
  | zero => intro f2 i h1 h2; omega
  | succ n ih =>
    intro f2 i h1 h2
    cases f2 with
    | zero => omega
    | succ m =>
      rw [skipUntilFromKw, skipUntilFromKw]
      by_cases hcond : ¬((peekTok tokens i).type = TokType.keyword ∧
          (peekTok tokens i).value = str "from") ∧ (peekTok tokens i).type ≠ TokType.eof
      · have hilt : i < tokens.length - 1 := by
          by_contra hge
          rw [peekTok_of_getLast tokens e hl i (by omega)] at hcond
          exact hcond.2 he
        rw [if_pos hcond, if_pos hcond]
        exact ih m (i+1) (by omega) (by omega)
      · rw [if_neg hcond, if_neg hcond]

theorem collectExportNames_stable (tokens : List Token) (e : Token)
    (hl : tokens.getLast? = some e) (he : e.type = TokType.eof) :
    ∀ f1 f2 i names, tokens.length - i < f1 → tokens.length - i < f2 →
      collectExportNames tokens f1 i names = collectExportNames tokens f2 i names := by
  intro f1
  induction f1 with
  | zero => intro f2 i names h1 h2; omega
  | succ n ih =>
    intro f2 i names h1 h2
    cases f2 with
    | zero => omega
    | succ m =>
      rw [collectExportNames, collectExportNames]
      by_cases heof : (peekTok tokens i).type = TokType.eof
      · rw [if_pos heof, if_pos heof]
      · have hilt : i < tokens.length - 1 := by
          by_contra hge
          rw [peekTok_of_getLast tokens e hl i (by omega)] at heof
          exact heof he
        rw [if_neg heof, if_neg heof]
        split_ifs
        · exact ih m (i+1) _ (by omega) (by omega)
        · rfl
        · exact ih m (i+1) _ (by omega) (by omega)

theorem findModuleSyntaxAux_stable (tokens : List Token) :
    ∀ f1 f2 i imps exps, tokens.length - i < f1 → tokens.length - i < f2 →
      findModuleSyntaxAux tokens f1 i imps exps =
        findModuleSyntaxAux tokens f2 i imps exps := by
  intro f1
  induction f1 with
  | zero => intro f2 i imps exps h1 h2; omega
  | succ n ih =>
    intro f2 i imps exps h1 h2
    cases f2 with
    | zero => omega
    | succ m =>
      rw [findModuleSyntaxAux, findModuleSyntaxAux]
      by_cases hA : i < tokens.length
      case neg => rw [if_neg hA, if_neg hA]
      rw [if_pos hA, if_pos hA]
      dsimp only
      have hg1 := endStmt_ge tokens (i + 1 + 1)
      have hg2 := skipUntilFromKw_ge tokens (tokens.length + 1) (i + 1)
      have hg3 := endStmt_ge tokens (skipUntilFromKw tokens (tokens.length + 1) (i + 1) + 2)
      have hg4 := endStmt_ge tokens (skipUntilFromKw tokens (tokens.length + 1) (i + 1) + 1)
      have hg5 := endStmt_ge tokens (skipUntilFromKw tokens (tokens.length + 1) (i + 1))
      have hg6 := endStmt_ge tokens (i + 1 + 3)
      have hg7 := endStmt_ge tokens (i + 1 + 2)
      have hg8 := endStmt_ge tokens (i + 1)
      have hg9 := collectExportNames_ge tokens (tokens.length + 1) (i + 1 + 1) []
      have hg10 := endStmt_ge tokens
        ((collectExportNames tokens (tokens.length + 1) (i + 1 + 1) []).2)
      split_ifs <;>
        first
          | rfl
          | exact ih _ _ _ _ (by omega) (by omega)

/-- The outer statement loop of `findModuleSyntax` is fuel-independent above
the threshold `tokens.length - cursor`: every fuel of at least
`tokens.length + 1` yields the same records, so the canonical fuel choice
does not truncate the walk. -/
theorem findModuleSyntax_fuel_irrelevant (tokens : List Token) (fuel : Nat)
    (h : tokens.length < fuel) :
    findModuleSyntaxAux tokens fuel 0 [] [] = findModuleSyntax tokens := by
  rw [findModuleSyntax]
  exact findModuleSyntaxAux_stable tokens fuel (tokens.length + 1) 0 [] []
    (by omega) (by omega)

theorem mHas_mem_keys {α : Type} (m : List (JSStr × α)) (k : JSStr)
    (h : mHas m k = true) : k ∈ m.map Prod.fst := by
  unfold mHas mGet at h
  cases hf : m.find? (fun p => p.1 == k) with
  | none => rw [hf] at h; simp at h
  | some p =>
    have hmem := List.mem_of_find?_eq_some hf
    have hpk := List.find?_some hf
    simp only [beq_iff_eq] at hpk
    exact hpk ▸ List.mem_map_of_mem Prod.fst hmem

theorem nodup_subset_length_le (l keys : List JSStr) (hnd : l.Nodup)
    (hsub : ∀ x ∈ l, x ∈ keys) : l.length ≤ keys.length := by
  classical
  calc l.length = l.toFinset.card := (List.toFinset_card_of_nodup hnd).symm
    _ ≤ keys.toFinset.card := by
        apply Finset.card_le_card
        intro x hx
        rw [List.mem_toFinset] at hx ⊢
        exact hsub x hx
    _ ≤ keys.length := keys.toFinset_card_le

theorem visitDFS_stable (M : ModuleMap) (graph : List (JSStr × List JSStr)) :
    ∀ f1 f2 modName visiting st,
      visiting.Nodup → (∀ x ∈ visiting, mHas M x = true) → mHas M modName = true →
      M.length - visiting.length < f1 → M.length - visiting.length < f2 →
      visitDFS M graph f1 modName visiting st = visitDFS M graph f2 modName visiting st := by
  intro f1
  induction f1 with
  | zero => intro f2 modName visiting st _ _ _ h1 h2; omega
  | succ n ih =>
    intro f2 modName visiting st hnd hvm hmod h1 h2
    cases f2 with
    | zero => omega
    | succ m =>
      rw [visitDFS, visitDFS]
      by_cases hvis : modName ∈ st.1
      · rw [if_pos hvis, if_pos hvis]
      · rw [if_neg hvis, if_neg hvis]
        by_cases hing : modName ∈ visiting
        · rw [if_pos hing, if_pos hing]
        · rw [if_neg hing, if_neg hing]
          have hnd1 : (modName :: visiting).Nodup := List.nodup_cons.mpr ⟨hing, hnd⟩
          have hvm1 : ∀ x ∈ modName :: visiting, mHas M x = true := by
            intro x hx
            rcases List.mem_cons.mp hx with rfl | hx
            · exact hmod
            · exact hvm x hx
          have hcap : (modName :: visiting).length ≤ (M.map Prod.fst).length := by
            apply nodup_subset_length_le _ (M.map Prod.fst) hnd1
            intro x hx
            exact mHas_mem_keys M x (hvm1 x hx)
          have hcap' : visiting.length + 1 ≤ M.length := by
            simpa using hcap
          dsimp only
          have hfold : ∀ (deps : List JSStr) (acc : List JSStr × List JSStr),
              deps.foldl (fun acc dep =>
                if mHas M dep then visitDFS M graph n dep (modName :: visiting) acc
                else acc) acc =
              deps.foldl (fun acc dep =>
                if mHas M dep then visitDFS M graph m dep (modName :: visiting) acc
                else acc) acc := by
            intro deps
            induction deps with
            | nil => intro acc; rfl
            | cons d rest ihd =>
              intro acc
              rw [List.foldl_cons, List.foldl_cons]
              by_cases hd : mHas M d
              · rw [if_pos hd, if_pos hd,
                  ih m d (modName :: visiting) acc hnd1 hvm1 hd
                    (by simp only [List.length_cons]; omega)
                    (by simp only [List.length_cons]; omega)]
                exact ihd _
              · rw [if_neg hd, if_neg hd]
                exact ihd _
          rw [hfold]

/-- The depth-first `visit` of the bundler is fuel-independent above the
depth bound `M.length - visiting.length`, so the fuel `M.length + 2`
supplied by `topologicalSort` (with an empty visiting set) never truncates
the descent. -/
theorem visitDFS_fuel_irrelevant (M : ModuleMap) (graph : List (JSStr × List JSStr))
    (fuel : Nat) (modName : JSStr) (st : List JSStr × List JSStr)
    (hmod : mHas M modName = true) (h : M.length < fuel) :
    visitDFS M graph fuel modName [] st = visitDFS M graph (M.length + 2) modName [] st := by
  apply visitDFS_stable M graph fuel (M.length + 2) modName [] st List.nodup_nil
    (by intro x hx; simp at hx) hmod
  · simpa using h
  · simp

theorem mGet_eq_none_iff {α : Type} (m : List (JSStr × α)) (k : JSStr) :
    mGet m k = none ↔ k ∉ m.map Prod.fst := by
  constructor
  · intro h hk
    obtain ⟨p, hp, hpk⟩ := List.mem_map.mp hk
    unfold mGet at h
    cases hf : m.find? (fun p => p.1 == k) with
    | none => exact List.find?_eq_none.mp hf p hp (beq_iff_eq.mpr hpk)
    | some q => rw [hf] at h; simp at h
  · intro h
    unfold mGet
    have hf : m.find? (fun p => p.1 == k) = none := by
      rw [List.find?_eq_none]
      intro p hp hpk
      rw [beq_iff_eq] at hpk
      exact h (by rw [← hpk]; exact List.mem_map_of_mem Prod.fst hp)
    rw [hf]
    rfl

theorem sum_filter_split {α : Type} (f : α → Nat) (q r : α → Bool) :
    ∀ l : List α,
      ((l.filter (fun x => q x && !r x)).map f).sum +
        ((l.filter (fun x => q x && r x)).map f).sum = ((l.filter q).map f).sum := by
  intro l
  induction l with
  | nil => simp
  | cons a t ih =>
    simp only [List.filter_cons]
    by_cases hqa : q a = true <;> by_cases hra : r a = true <;>
      simp [hqa, hra] <;> omega

theorem filter_key_unique {α : Type} (k : JSStr) (v : α) :
    ∀ G : List (JSStr × α), (G.map Prod.fst).Nodup → mGet G k = some v →
      G.filter (fun p => p.1 == k) = [(k, v)] := by
  intro G
  induction G with
  | nil => intro _ h; simp [mGet] at h
  | cons p t ih =>
    intro hnd hsome
    rw [List.map_cons, List.nodup_cons] at hnd
    by_cases hpk : p.1 = k
    · have hv : p.2 = v := by
        simp only [mGet, List.find?_cons, beq_iff_eq, hpk] at hsome
        simpa using hsome
      have htail : t.filter (fun p => p.1 == k) = [] := by
        rw [List.filter_eq_nil_iff]
        intro a ha hak
        rw [beq_iff_eq] at hak
        exact hnd.1 (by rw [hpk, ← hak]; exact List.mem_map_of_mem Prod.fst ha)
      have hbeq : (p.1 == k) = true := beq_iff_eq.mpr hpk
      rw [List.filter_cons, hbeq, if_pos rfl, htail]
      have hpv : p = (k, v) := Prod.ext_iff.mpr ⟨hpk, hv⟩
      rw [hpv]
    · have hbeq : (p.1 == k) = false := beq_eq_false_iff_ne.mpr hpk
      have hsome' : mGet t k = some v := by
        unfold mGet at hsome ⊢
        rw [List.find?_cons_of_neg _ (by simp [hbeq])] at hsome
        exact hsome
      rw [List.filter_cons, hbeq]
      simpa using ih hnd.2 hsome'

theorem foldl_pair_queue_len {β : Type} (visited1 : List JSStr)
    (F : (List JSStr × β) → JSStr → β) :
    ∀ (deps : List JSStr) (st : List JSStr × β),
      ((deps.foldl (fun qu dep =>
        ((if dep ∈ visited1 then qu.1 else qu.1 ++ [dep]), F qu dep)) st).1).length ≤
        st.1.length + deps.length := by
  intro deps
  induction deps with
  | nil => intro st; simp
  | cons d rest ih =>
    intro st
    rw [List.foldl_cons]
    refine Nat.le_trans (ih _) ?_
    by_cases hd : d ∈ visited1 <;> simp [hd] <;> omega

theorem foldl_queue_len (visited1 : List JSStr) :
    ∀ (deps q : List JSStr),
      (deps.foldl (fun q dep => if dep ∈ visited1 then q else q ++ [dep]) q).length ≤
        q.length + deps.length := by
  intro deps
  induction deps with
  | nil => intro q; simp
  | cons d rest ih =>
    intro q
    rw [List.foldl_cons]
    refine Nat.le_trans (ih _) ?_
    by_cases hd : d ∈ visited1 <;> simp [hd] <;> omega

theorem markBound_step (gd : GraphData)
    (hnd : (gd.graph.map Prod.fst).Nodup)
    (hkeys : gd.reexports.map Prod.fst = gd.graph.map Prod.fst)
    (queue visited queue2 : List JSStr) (modName : JSStr)
    (hqne : queue ≠ []) (hv : modName ∉ visited)
    (hq2 : queue2.length ≤ queue.dropLast.length +
      ((mGet gd.graph modName).getD []).length +
      ((mGet gd.reexports modName).getD []).length) :
    markBound gd queue2 (visited ++ [modName]) + 1 ≤ markBound gd queue visited := by
  have hqlen : queue.dropLast.length + 1 = queue.length := by
    rw [List.length_dropLast]
    have := List.length_pos.mpr hqne
    omega
  unfold markBound
  have hpred : gd.graph.filter (fun p => decide (¬ p.1 ∈ visited ++ [modName])) =
      gd.graph.filter (fun p => decide (¬ p.1 ∈ visited) && !(p.1 == modName)) := by
    apply List.filter_congr
    intro p _
    by_cases h1 : p.1 ∈ visited <;> by_cases h2 : p.1 = modName <;>
      simp [h1, h2, List.mem_append]
  cases hmem : mGet gd.graph modName with
  | some imports0 =>
    have hsplit := sum_filter_split
      (fun p => 1 + p.2.length + ((mGet gd.reexports p.1).getD []).length)
      (fun p => decide (¬ p.1 ∈ visited)) (fun p => (p.1 == modName)) gd.graph
    have huniq : gd.graph.filter
        (fun p => decide (¬ p.1 ∈ visited) && (p.1 == modName)) = [(modName, imports0)] := by
      have h1 : gd.graph.filter (fun p => decide (¬ p.1 ∈ visited) && (p.1 == modName)) =
          (gd.graph.filter (fun p => (p.1 == modName))).filter
            (fun p => decide (¬ p.1 ∈ visited)) := by
        rw [List.filter_filter]
      rw [h1, filter_key_unique modName imports0 gd.graph hnd hmem]
      simp [List.filter_cons, hv]
    rw [hpred]
    rw [huniq] at hsplit
    simp only [List.map_cons, List.map_nil, List.sum_cons, List.sum_nil] at hsplit
    rw [hmem] at hq2
    simp only [Option.getD_some] at hq2
    omega
  | none =>
    have hnotmem : modName ∉ gd.graph.map Prod.fst := (mGet_eq_none_iff _ _).mp hmem
    have hre : mGet gd.reexports modName = none := by
      rw [mGet_eq_none_iff, hkeys]
      exact hnotmem
    have hpred2 : gd.graph.filter (fun p => decide (¬ p.1 ∈ visited ++ [modName])) =
        gd.graph.filter (fun p => decide (¬ p.1 ∈ visited)) := by
      apply List.filter_congr
      intro p hp
      have hne : p.1 ≠ modName := fun hc =>
        hnotmem (by rw [← hc]; exact List.mem_map_of_mem Prod.fst hp)
      by_cases h1 : p.1 ∈ visited <;> simp [h1, hne, List.mem_append]
    rw [hpred2]
    rw [hmem, hre] at hq2
    simp only [Option.getD_none, List.length_nil] at hq2
    omega

theorem markReachableLoop_stable (gd : GraphData)
    (hnd : (gd.graph.map Prod.fst).Nodup)
    (hkeys : gd.reexports.map Prod.fst = gd.graph.map Prod.fst) :
    ∀ f1 f2 queue visited used,
      markBound gd queue visited < f1 → markBound gd queue visited < f2 →
      markReachableLoop gd f1 queue visited used =
        markReachableLoop gd f2 queue visited used := by
  intro f1
  induction f1 with
  | zero => intro f2 q v u h1 h2; omega
  | succ n ih =>
    intro f2 queue visited used h1 h2
    cases f2 with
    | zero => omega
    | succ m =>
      rw [markReachableLoop, markReachableLoop]
      cases hq : queue.getLast? with
      | none => rfl
      | some modName =>
        have hqne : queue ≠ [] := by
          intro hn
          rw [hn] at hq
          exact Option.noConfusion hq
        have hqlen : queue.dropLast.length + 1 = queue.length := by
          rw [List.length_dropLast]
          have := List.length_pos.mpr hqne
          omega
        dsimp only
        by_cases hv : modName ∈ visited
        · rw [if_pos hv, if_pos hv]
          apply ih m queue.dropLast visited used ?_ ?_
          all_goals
            unfold markBound at h1 h2 ⊢
          all_goals omega
        · rw [if_neg hv, if_neg hv]
          have hA := foldl_pair_queue_len (visited ++ [modName])
            (fun qu dep => mSet qu.2 dep
              ((((mGet gd.exportMap dep).getD []).foldl sadd ((mGet qu.2 dep).getD []))))
            ((mGet gd.graph modName).getD []) (queue.dropLast, used)
          simp only [] at hA
          have hB := foldl_queue_len (visited ++ [modName])
            ((mGet gd.reexports modName).getD [])
            (((mGet gd.graph modName).getD []).foldl
              (fun qu dep => ((if dep ∈ visited ++ [modName] then qu.1 else qu.1 ++ [dep]),
                mSet qu.2 dep
                  ((((mGet gd.exportMap dep).getD []).foldl sadd ((mGet qu.2 dep).getD [])))))
              (queue.dropLast, used)).1
          have hstep := markBound_step gd hnd hkeys queue visited
            (((mGet gd.reexports modName).getD []).foldl
              (fun q dep => if dep ∈ visited ++ [modName] then q else q ++ [dep])
              (((mGet gd.graph modName).getD []).foldl
                (fun qu dep => ((if dep ∈ visited ++ [modName] then qu.1 else qu.1 ++ [dep]),
                  mSet qu.2 dep
                    ((((mGet gd.exportMap dep).getD []).foldl sadd ((mGet qu.2 dep).getD [])))))
                (queue.dropLast, used)).1)
            modName hqne hv (by
              refine Nat.le_trans hB ?_
              omega)
          apply ih m _ _ _ ?_ ?_
          · omega
          · omega

theorem mHas_iff_mem_keys {α : Type} (m : List (JSStr × α)) (k : JSStr) :
    mHas m k = true ↔ k ∈ m.map Prod.fst := by
  unfold mHas
  rw [Option.isSome_iff_ne_none]
  constructor
  · intro h
    by_contra hk
    exact h ((mGet_eq_none_iff m k).mpr hk)
  · intro h hn
    exact (mGet_eq_none_iff m k).mp hn h

theorem mSet_keys {α : Type} (m : List (JSStr × α)) (k : JSStr) (v : α) :
    (mSet m k v).map Prod.fst =
      if mHas m k then m.map Prod.fst else m.map Prod.fst ++ [k] := by
  unfold mSet
  by_cases h : mHas m k
  · rw [if_pos h, if_pos h, List.map_map]
    apply List.map_congr_left
    intro p _
    by_cases hp : p.1 = k
    · simp [Function.comp, beq_iff_eq.mpr hp, hp]
    · simp [Function.comp, beq_eq_false_iff_ne.mpr hp]
  · rw [if_neg h, if_neg h, List.map_append]
    rfl

theorem foldl_add_len {α : Type} (g : α → Nat) :
    ∀ (l : List α) (a : Nat), l.foldl (fun a p => a + g p) a = a + (l.map g).sum := by
  intro l
  induction l with
  | nil => intro a; simp
  | cons p t ih =>
    intro a
    rw [List.foldl_cons, ih]
    simp
    omega

theorem sum_mGet_keys :
    ∀ r : List (JSStr × List JSStr), (r.map Prod.fst).Nodup →
      ((r.map Prod.fst).map (fun k => ((mGet r k).getD []).length)).sum =
        (r.map (fun q => q.2.length)).sum := by
  intro r
  induction r with
  | nil => intro _; simp
  | cons q t ih =>
    intro hnd
    rw [List.map_cons, List.nodup_cons] at hnd
    have hhead : mGet (q :: t) q.1 = some q.2 := by
      unfold mGet
      rw [List.find?_cons_of_pos _ (by simp)]
      rfl
    have htail : ∀ k ∈ t.map Prod.fst,
        ((mGet (q :: t) k).getD []).length = ((mGet t k).getD []).length := by
      intro k hk
      have hne : q.1 ≠ k := fun hc => hnd.1 (hc ▸ hk)
      unfold mGet
      rw [List.find?_cons_of_neg _ (by simp [hne])]
    simp only [List.map_cons, List.sum_cons]
    rw [hhead, List.map_congr_left htail, ih hnd.2]
    simp

theorem markFuel_gt_bound (gd : GraphData)
    (hnd : (gd.graph.map Prod.fst).Nodup)
    (hkeys : gd.reexports.map Prod.fst = gd.graph.map Prod.fst)
    (entry : JSStr) :
    markBound gd [entry] [] < markFuel gd := by
  unfold markBound markFuel
  have hfilter : gd.graph.filter (fun p => decide (¬ p.1 ∈ ([] : List JSStr))) = gd.graph := by
    apply List.filter_eq_self.mpr
    intro p _
    simp
  rw [hfilter, foldl_add_len (fun p => p.2.length) gd.graph 0,
    foldl_add_len (fun p => p.2.length) gd.reexports 0]
  have hsum : (gd.graph.map (fun p =>
      1 + p.2.length + ((mGet gd.reexports p.1).getD []).length)).sum =
      gd.graph.length + (gd.graph.map (fun p => p.2.length)).sum +
        (gd.graph.map (fun p => ((mGet gd.reexports p.1).getD []).length)).sum := by
    induction gd.graph with
    | nil => simp
    | cons p t ih =>
      simp only [List.map_cons, List.sum_cons, List.length_cons, ih]
      omega
  have hre : (gd.graph.map (fun p => ((mGet gd.reexports p.1).getD []).length)).sum =
      (gd.reexports.map (fun q => q.2.length)).sum := by
    have h1 : gd.graph.map (fun p => ((mGet gd.reexports p.1).getD []).length) =
        (gd.graph.map Prod.fst).map (fun k => ((mGet gd.reexports k).getD []).length) := by
      rw [List.map_map]
      rfl
    rw [h1, ← hkeys, sum_mGet_keys gd.reexports (hkeys ▸ hnd)]
  rw [hsum, hre]
  simp only [List.length_cons, List.length_nil]
  omega

theorem mSet4_keys_foldl (A B C : JSStr × JSStr → List JSStr)
    (D : JSStr × JSStr → Bool) :
    ∀ (l : ModuleMap) (gd0 : GraphData),
      (gd0.graph.map Prod.fst).Nodup →
      gd0.reexports.map Prod.fst = gd0.graph.map Prod.fst →
      (((l.foldl (fun gd p => GraphData.mk (mSet gd.graph p.1 (A p))
          (mSet gd.exportMap p.1 (B p)) (mSet gd.reexports p.1 (C p))
          (mSet gd.sideEffects p.1 (D p))) gd0).graph.map Prod.fst).Nodup) ∧
      ((l.foldl (fun gd p => GraphData.mk (mSet gd.graph p.1 (A p))
          (mSet gd.exportMap p.1 (B p)) (mSet gd.reexports p.1 (C p))
          (mSet gd.sideEffects p.1 (D p))) gd0).reexports.map Prod.fst =
        (l.foldl (fun gd p => GraphData.mk (mSet gd.graph p.1 (A p))
          (mSet gd.exportMap p.1 (B p)) (mSet gd.reexports p.1 (C p))
          (mSet gd.sideEffects p.1 (D p))) gd0).graph.map Prod.fst) := by
  intro l
  induction l with
  | nil => intro gd0 h1 h2; exact ⟨h1, h2⟩
  | cons p t ih =>
    intro gd0 h1 h2
    rw [List.foldl_cons]
    apply ih
    · rw [mSet_keys]
      by_cases h : mHas gd0.graph p.1
      · rw [if_pos h]
        exact h1
      · rw [if_neg h]
        rw [List.nodup_append]
        refine ⟨h1, List.nodup_singleton _, ?_⟩
        intro x hx hx1
        rw [List.mem_singleton] at hx1
        subst hx1
        exact h ((mHas_iff_mem_keys _ _).mpr hx)
    · have hsame : mHas gd0.reexports p.1 = mHas gd0.graph p.1 := by
        have hiff : mHas gd0.reexports p.1 = true ↔ mHas gd0.graph p.1 = true := by
          rw [mHas_iff_mem_keys, mHas_iff_mem_keys, h2]
        cases hg : mHas gd0.graph p.1
        · cases hr : mHas gd0.reexports p.1
          · rfl
          · exact absurd (hiff.mp hr) (by rw [hg]; exact Bool.false_ne_true)
        · exact hiff.mpr hg
      rw [mSet_keys, mSet_keys, h2, hsame]

theorem buildDependencyGraph_keys (M : ModuleMap) :
    ((buildDependencyGraph M).graph.map Prod.fst).Nodup ∧
      (buildDependencyGraph M).reexports.map Prod.fst =
        (buildDependencyGraph M).graph.map Prod.fst := by
  exact mSet4_keys_foldl
    (fun p => (findModuleSyntax (tokenize p.2)).1.foldl (fun acc imp =>
      if imp.source ≠ [] then sadd acc imp.source else acc) [])
    (fun p => ((findModuleSyntax (tokenize p.2)).2.foldl
      (fun er exp =>
        if exp.etype = ExportKind.dflt then (sadd er.1 (str "default"), er.2)
        else if exp.etype = ExportKind.named then (exp.names.foldl sadd er.1, er.2)
        else
          (sadd er.1 (str "*"),
           match exp.source with
           | some src => if src ≠ [] then sadd er.2 src else er.2
           | none => er.2)) ([], [])).1)
    (fun p => ((findModuleSyntax (tokenize p.2)).2.foldl
      (fun er exp =>
        if exp.etype = ExportKind.dflt then (sadd er.1 (str "default"), er.2)
        else if exp.etype = ExportKind.named then (exp.names.foldl sadd er.1, er.2)
        else
          (sadd er.1 (str "*"),
           match exp.source with
           | some src => if src ≠ [] then sadd er.2 src else er.2
           | none => er.2)) ([], [])).2)
    (fun p => moduleHasSideEffects (tokenize p.2))
    M ⟨[], [], [], []⟩ (by simp) (by simp)

/-- The `markReachable` worklist is fuel-independent above its termination
measure, and `markFuel` strictly dominates that measure for the graphs
`buildDependencyGraph` produces, so the fuel supplied by `markReachable`
never runs out. -/
theorem markReachable_fuel_irrelevant (M : ModuleMap) (entryModule : JSStr)
    (fuel : Nat) (h : markFuel (buildDependencyGraph M) ≤ fuel) :
    markReachableLoop (buildDependencyGraph M) fuel [entryModule] [] [] =
      markReachable (buildDependencyGraph M) entryModule := by
  obtain ⟨hnd, hkeys⟩ := buildDependencyGraph_keys M
  have hb := markFuel_gt_bound (buildDependencyGraph M) hnd hkeys entryModule
  rw [markReachable]
  exact markReachableLoop_stable (buildDependencyGraph M) hnd hkeys fuel
    (markFuel (buildDependencyGraph M)) [entryModule] [] [] (by omega) hb

/-- C1: for every input string `s`, concatenating the `value` fields of the
tokens of `tokenize s` in order, excluding the trailing `eof` token, yields
exactly `s`. -/
theorem c1_tokenize_roundtrip (s : JSStr) :
    (((tokenize s).dropLast).map Token.value).flatten = s := by
  have hall : ((tokenize s).map Token.value).flatten = s := by
    have h := tokAux_flatten s (s.length + 1) 0 none (by omega)
    rw [tokenize]
    simpa using h
  have hlast : (tokenize s).getLast? = some ⟨TokType.eof, [], s.length, s.length⟩ := by
    rw [tokenize]
    exact tokAux_last s (s.length + 1) 0 none (by omega)
  have hne : tokenize s ≠ [] := by
    intro hnil
    rw [hnil] at hlast
    exact Option.noConfusion hlast
  have hgl : (tokenize s).getLast hne = ⟨TokType.eof, [], s.length, s.length⟩ := by
    have := List.getLast?_eq_getLast (tokenize s) hne
    rw [this] at hlast
    exact Option.some.inj hlast
  have hsplit : (tokenize s).dropLast ++ [(tokenize s).getLast hne] = tokenize s :=
    List.dropLast_append_getLast hne
  calc (((tokenize s).dropLast).map Token.value).flatten
      = (((tokenize s).dropLast).map Token.value).flatten ++
          (((tokenize s).getLast hne).value) := by rw [hgl]; simp
    _ = (((tokenize s).dropLast ++ [(tokenize s).getLast hne]).map Token.value).flatten := by
          simp
    _ = ((tokenize s).map Token.value).flatten := by rw [hsplit]
    _ = s := hall

/-- C4: for every input string `s`, `tokenize s` terminates (it is a total
function of this development) and returns a list whose last element is the
only token of kind `eof`, with `start = end = len s`. -/
theorem c4_tokenize_eof_final (s : JSStr) :
    (tokenize s).getLast? = some ⟨TokType.eof, [], s.length, s.length⟩ ∧
      ((tokenize s).filter (fun t => t.type == TokType.eof)).length = 1 := by
  constructor
  · rw [tokenize]
    exact tokAux_last s (s.length + 1) 0 none (by omega)
  · rw [tokenize]
    exact tokAux_eof_count s (s.length + 1) 0 none (by omega)

/-- C2 (counterexample): on the two-character input `"\` — an unterminated
string literal ending in a backslash — the `end` offset of the string token is 3,
which exceeds the input length 2, refuting `t.end ≤ len s`. -/
theorem c2_counterexample :
    ¬ ∀ t ∈ tokenize (str "\"\\"), t.stop ≤ (str "\"\\").length := by
  decide

/-- C2 (amended): for every input string `s` and token `t` of `tokenize s`,
`0 ≤ t.start ≤ t.end ≤ len s + 1`, `t.start ≤ len s`, and the JavaScript
slice `s[t.start:t.end]` (whose end index is clamped to `len s`) equals
`t.value`; `t.end` can exceed `len s` only by one, when an unterminated
string, template or regex literal ends in a backslash escape. -/
theorem c2_amended_token_bounds (s : JSStr) (t : Token) (ht : t ∈ tokenize s) :
    0 ≤ t.start ∧ t.start ≤ t.stop ∧ t.start ≤ s.length ∧ t.stop ≤ s.length + 1 ∧
      slice s t.start t.stop = t.value := by
  have h := tokAux_bounds s (s.length + 1) 0 none t (by rw [tokenize] at ht; exact ht)
  exact ⟨Nat.zero_le _, h.1, h.2.1, h.2.2.1, h.2.2.2⟩

theorem c2_amended_token_bounds_witness :
    (Token.mk TokType.identifier (str "a") 0 1) ∈ tokenize (str "a") ∧
      (0 ≤ (0 : Nat) ∧ (0 : Nat) ≤ 1 ∧ 0 ≤ (str "a").length ∧
        1 ≤ (str "a").length + 1 ∧ slice (str "a") 0 1 = str "a") := by
  constructor
  · decide
  · exact c2_amended_token_bounds (str "a")
      (Token.mk TokType.identifier (str "a") 0 1) (by decide)

theorem minifyStep_eq (acc : List Token) (t : Token) :
    minifyStep acc t = acc ++ (specBoolRewrite t).toList := by
  unfold minifyStep specBoolRewrite
  split_ifs <;> simp

theorem foldl_minifyStep_filterMap (l : List Token) :
    ∀ acc : List Token, l.foldl minifyStep acc = acc ++ l.filterMap specBoolRewrite := by
  induction l with
  | nil => intro acc; simp
  | cons t rest ih =>
    intro acc
    rw [List.foldl_cons, minifyStep_eq, ih, List.filterMap_cons]
    cases hr : specBoolRewrite t <;> simp

/-- C6: with `keepComments = false`, the token pass of the minifier equals, for
every input, the claim-side rewrite `specBoolRewrite` (drop comments;
identifier/keyword `true` becomes `!0`, `false` becomes `!1`, everything else
including `null` is unrewritten); and on the concrete input
`if (true) { a = false; b = null; }` the minified output is
`if(!0){a=!1; b=null; }`, which contains `!0`, `!1` and `null` and contains
no `true` or `false`. -/
theorem c6_minify_booleans :
    (∀ s : JSStr, minifyTransform (tokenize s) = (tokenize s).filterMap specBoolRewrite) ∧
      minify {} c6Input = str "if(!0)\x7ba=!1; b=null; \x7d" ∧
      containsSub (minify {} c6Input) (str "!0") = true ∧
      containsSub (minify {} c6Input) (str "!1") = true ∧
      containsSub (minify {} c6Input) (str "null") = true ∧
      containsSub (minify {} c6Input) (str "true") = false ∧
      containsSub (minify {} c6Input) (str "false") = false := by
  refine ⟨fun s => ?_, ?_, ?_, ?_, ?_, ?_, ?_⟩
  · rw [minifyTransform, foldl_minifyStep_filterMap]
    simp
  all_goals decide

/-- C7 (counterexample): with `keepComments` set, `minify " a"` returns
`" a"` unchanged, not the trimmed `"a"` the claim requires. -/
theorem c7_counterexample :
    ¬ (minify ⟨true⟩ (str " a") = jsTrim (str " a")) := by
  decide

/-- C7 (amended): with `keepComments` set, `minify` returns the source
unchanged — without trimming — except that a source that is empty after
trimming yields the empty string. -/
theorem c7_amended_keepComments (s : JSStr) :
    minify ⟨true⟩ s = if jsTrim s = [] then [] else s := by
  rw [minify]
  split_ifs with h1 h2
  · rfl
  · rfl
  · exact absurd rfl h2

theorem obfEmitStep_eq (out : JSStr) (t : Token) :
    obfEmitStep out t = out ++ specEncodeTok t := by
  unfold obfEmitStep specEncodeTok
  split_ifs <;> simp

theorem foldl_obfEmitStep_flatten (l : List Token) :
    ∀ out : JSStr, l.foldl obfEmitStep out = out ++ (l.map specEncodeTok).flatten := by
  induction l with
  | nil => intro out; simp
  | cons t rest ih =>
    intro out
    rw [List.foldl_cons, obfEmitStep_eq, ih]
    simp

/-- C9: with `encodeStrings = true` (the default options), `obfuscate` equals
for every input the concatenation of the claim-side per-token encoding
`specEncodeTok` (string tokens re-emitted as `q<encoded>q` with lowercase
two-digit `\xHH` escapes, template tokens encoded exactly when they contain
no `${` and emitted verbatim otherwise, all else verbatim); and obfuscating
`const secret = "Hi";` yields `const secret = "\x48\x69";`, which contains
`"\x48\x69"` and does not contain `Hi`. -/
theorem c9_obfuscate_hex_encoding :
    (∀ s : JSStr, obfuscate {} s = ((tokenize s).map specEncodeTok).flatten) ∧
      obfuscate {} c9Input = str "const secret = \"\\x48\\x69\";" ∧
      containsSub (obfuscate {} c9Input) (str "\"\\x48\\x69\"") = true ∧
      containsSub (obfuscate {} c9Input) (str "Hi") = false := by
  refine ⟨fun s => ?_, ?_, ?_, ?_⟩
  · calc obfuscate {} s = (tokenize s).foldl obfEmitStep [] := rfl
      _ = [] ++ ((tokenize s).map specEncodeTok).flatten := foldl_obfEmitStep_flatten _ _
      _ = ((tokenize s).map specEncodeTok).flatten := by simp
  all_goals decide

/-- C10: `obfuscate` with all three options disabled is the identity on
every input, and `flattenControlFlow` returns its input unchanged for every
option record, in particular also when `flattenIfs` is true. -/
theorem c10_obfuscate_identity :
    (∀ s : JSStr, obfuscate ⟨false, false, false⟩ s = s) ∧
      (∀ (opts : ObfOptions) (s : JSStr), flattenControlFlow opts s = s) := by
  constructor
  · intro s
    rfl
  · intro opts s
    rw [flattenControlFlow]
    split_ifs <;> rfl

/-- C3 (code bug evaluation): the module `./fx.js` with body `new Date();`
tokenizes to a stream containing a token with value `new`, yet its
side-effect flag is `false` (the check requires an `identifier`-typed token
while the tokenizer types `new` as a `keyword`), and `shake` therefore emits
the empty source for it, not the original source the claim requires. -/
theorem c3_side_effect_erased :
    ((tokenize (str "new Date();")).any (fun t => t.value == str "new")) = true ∧
      mGet (buildDependencyGraph c3Modules).sideEffects (str "./fx.js") = some false ∧
      mGet (shake c3Modules (str "./entry.js")) (str "./fx.js") = some [] := by
  decide

set_option maxRecDepth 40000 in
/-- C8 (code bug evaluation): for the module map in which `./index.js`
imports `./util.js` (the own bundler test case of the repository), the
function `extractImports`
finds no dependency (the `from` token is an `identifier`, but the matcher
requires a `keyword`, and whitespace tokens are never skipped), so the
topological order places the entry before its dependency and the marker
`/* Module: ./index.js */` occurs at a strictly smaller index than
`/* Module: ./util.js */` — the opposite of the claimed order. -/
theorem c8_dependency_after_importer :
    extractImports c8IndexSrc = [] ∧
      topologicalSort c8Modules (buildBundlerGraph c8Modules) (str "./index.js") =
        [str "./index.js", str "./util.js"] ∧
      (match indexOfSub? (moduleMarker (str "./index.js")) (bundle c8Modules (str "./index.js")),
             indexOfSub? (moduleMarker (str "./util.js")) (bundle c8Modules (str "./index.js")) with
       | some i, some j => decide (i < j)
       | _, _ => false) = true := by
  decide

theorem mGet_append_of_none {α : Type} {m1 : List (JSStr × α)} (m2 : List (JSStr × α))
    (k : JSStr) (h : mGet m1 k = none) : mGet (m1 ++ m2) k = mGet m2 k := by
  induction m1 with
  | nil => simp
  | cons p rest ih =>
    simp only [mGet, List.find?] at h ⊢
    cases hp : (p.1 == k) with
    | true => rw [hp] at h; simp at h
    | false =>
      rw [hp] at h
      simp only [List.cons_append, List.find?, hp]
      exact ih h

theorem mSet_of_none {α : Type} (m : List (JSStr × α)) (k : JSStr) (v : α)
    (h : mGet m k = none) : mSet m k v = m ++ [(k, v)] := by
  unfold mSet mHas
  rw [h]
  rfl

theorem mGet_singleton_of_ne {α : Type} (a k : JSStr) (v : α) (h : a ≠ k) :
    mGet [(a, v)] k = none := by
  simp [mGet, List.find?, beq_eq_false_iff_ne.mpr h]

theorem shake_foldl_eq (G : JSStr × JSStr → JSStr) :
    ∀ (l : ModuleMap) (out : ModuleMap),
      (∀ p ∈ l, mGet out p.1 = none) → (l.map Prod.fst).Nodup →
      l.foldl (fun output p => mSet output p.1 (G p)) out =
        out ++ l.map (fun p => (p.1, G p)) := by
  intro l
  induction l with
  | nil => intro out _ _; simp
  | cons p rest ih =>
    intro out hfresh hnd
    rw [List.foldl_cons, mSet_of_none out p.1 (G p) (hfresh p (List.mem_cons_self p rest))]
    rw [List.map_cons, List.nodup_cons] at hnd
    rw [ih (out ++ [(p.1, G p)]) ?_ hnd.2]
    · simp
    · intro q hq
      rw [mGet_append_of_none [(p.1, G p)] q.1 (hfresh q (List.mem_cons_of_mem p hq))]
      apply mGet_singleton_of_ne
      intro hcontra
      exact hnd.1 (hcontra ▸ List.mem_map_of_mem Prod.fst hq)

theorem eliminateDeadCode_iff (gd : GraphData) (code moduleName : JSStr)
    (usedExports : List JSStr) :
    eliminateDeadCodeForModule gd code moduleName usedExports =
      if usedExports = [] ∧ ¬(mGet gd.sideEffects moduleName).getD false then []
      else code := by
  unfold eliminateDeadCodeForModule
  by_cases hu : usedExports = []
  · subst hu
    simp
  · have hlen : usedExports.length > 0 := by
      cases usedExports with
      | nil => exact absurd rfl hu
      | cons a t => simp
    rw [if_neg (by omega), if_neg (by exact fun hc => hu hc.1)]

/-- C5: `shake` returns a new map whose keys are exactly the keys of the
input map in its iteration order; for every module other than the entry the
emitted source is empty when its usage-map entry is empty and its
side-effect flag is unset, and the original source of the module unchanged
otherwise; the source of the entry module is always emitted unchanged.  (The
input map is left unmutated: the embedding is purely functional and the
output is built as a fresh list.) -/
theorem c5_shake_contract (M : ModuleMap) (entryModule : JSStr)
    (hnd : (M.map Prod.fst).Nodup) :
    shake M entryModule = M.map (fun p => (p.1,
      if p.1 = entryModule then p.2
      else if (mGet (markReachable (buildDependencyGraph M) entryModule) p.1).getD [] = [] ∧
          ¬(mGet (buildDependencyGraph M).sideEffects p.1).getD false then []
      else p.2)) ∧
      (shake M entryModule).map Prod.fst = M.map Prod.fst := by
  have hmain : shake M entryModule = M.map (fun p => (p.1,
      if p.1 = entryModule then p.2
      else if (mGet (markReachable (buildDependencyGraph M) entryModule) p.1).getD [] = [] ∧
          ¬(mGet (buildDependencyGraph M).sideEffects p.1).getD false then []
      else p.2)) := by
    have hfun : (fun (output : ModuleMap) (p : JSStr × JSStr) =>
        if p.1 = entryModule then mSet output p.1 p.2
        else mSet output p.1 (eliminateDeadCodeForModule (buildDependencyGraph M) p.2 p.1
          ((mGet (markReachable (buildDependencyGraph M) entryModule) p.1).getD []))) =
        (fun (output : ModuleMap) (p : JSStr × JSStr) => mSet output p.1
          (if p.1 = entryModule then p.2
           else eliminateDeadCodeForModule (buildDependencyGraph M) p.2 p.1
             ((mGet (markReachable (buildDependencyGraph M) entryModule) p.1).getD []))) := by
      funext output p
      by_cases hc : p.1 = entryModule
      · rw [if_pos hc, if_pos hc]
      · rw [if_neg hc, if_neg hc]
    calc shake M entryModule
        = M.foldl (fun output p =>
            if p.1 = entryModule then mSet output p.1 p.2
            else mSet output p.1 (eliminateDeadCodeForModule (buildDependencyGraph M) p.2 p.1
              ((mGet (markReachable (buildDependencyGraph M) entryModule) p.1).getD []))) [] := rfl
      _ = M.foldl (fun output p => mSet output p.1
            (if p.1 = entryModule then p.2
             else eliminateDeadCodeForModule (buildDependencyGraph M) p.2 p.1
               ((mGet (markReachable (buildDependencyGraph M) entryModule) p.1).getD []))) [] := by
            rw [hfun]
      _ = [] ++ M.map (fun p => (p.1,
            if p.1 = entryModule then p.2
            else eliminateDeadCodeForModule (buildDependencyGraph M) p.2 p.1
              ((mGet (markReachable (buildDependencyGraph M) entryModule) p.1).getD []))) := by
            apply shake_foldl_eq _ M []
            · intro p _
              simp [mGet]
            · exact hnd
      _ = M.map (fun p => (p.1,
            if p.1 = entryModule then p.2
            else if (mGet (markReachable (buildDependencyGraph M) entryModule) p.1).getD [] = [] ∧
                ¬(mGet (buildDependencyGraph M).sideEffects p.1).getD false then []
            else p.2)) := by
            rw [List.nil_append]
            apply List.map_congr_left
            intro p _
            rw [eliminateDeadCode_iff]
  refine ⟨hmain, ?_⟩
  rw [hmain, List.map_map]
  apply List.map_congr_left
  intro p _
  rfl

theorem c5_shake_contract_witness :
    ((([(str "a", str "x")] : ModuleMap).map Prod.fst).Nodup) ∧
      (shake [(str "a", str "x")] (str "a") =
        ([(str "a", str "x")] : ModuleMap).map (fun p => (p.1,
          if p.1 = str "a" then p.2
          else if (mGet (markReachable (buildDependencyGraph [(str "a", str "x")]) (str "a"))
              p.1).getD [] = [] ∧
              ¬(mGet (buildDependencyGraph [(str "a", str "x")]).sideEffects p.1).getD false then []
          else p.2)) ∧
        (shake [(str "a", str "x")] (str "a")).map Prod.fst =
          ([(str "a", str "x")] : ModuleMap).map Prod.fst) := by
  constructor
  · decide
  · exact c5_shake_contract [(str "a", str "x")] (str "a") (by decide)

end Minibun
